import Mathlib

/-!
Verification of the template-anchored text-flow generator
(`src/Generador.tsx`): the sanitizer, the greedy word-wrap
`wrapAndConsume`, the title/body ingestion `extractTitleAndBody`, the
cross-page boilerplate filter of `parsePdfToText`, form-field (zone)
resolution from `analyzeTemplateBytes`, and the body-flow pagination loop
of `generatePdf`.

Strings are modelled by Lean `String` (a list of characters; the source
strings live in the BMP, where JavaScript UTF-16 lengths coincide with
character counts).  Page coordinates and measured glyph widths are
modelled by `ℚ`; the glyph-measurement function
`font.widthOfTextAtSize` is an abstract parameter `String → ℚ`.
-/

namespace Gen

/-! ### JavaScript string primitives -/

/-- The character class `\s` of JavaScript regexes (also the set trimmed
by `String.prototype.trim`): space, tab, LF, VT, FF, CR, NBSP, line/para
separator, BOM. -/
def isJsWs (c : Char) : Bool :=
  c == ' ' || c == '\t' || c == '\n' || c == '\x0b' || c == '\x0c' ||
  c == '\r' || c == '\u00A0' || c == '\u2028' || c == '\u2029' || c == '\uFEFF'

/-- `String.prototype.toLowerCase`, restricted to ASCII and Latin-1
(the repertoire `sanitize` admits): `A`–`Z` and `À`–`Þ` (except `×`)
shift down by 32. -/
def jsToLowerChar (c : Char) : Char :=
  if 'A' ≤ c ∧ c ≤ 'Z' then Char.ofNat (c.toNat + 32)
  else if 0xC0 ≤ c.toNat ∧ c.toNat ≤ 0xDE ∧ c.toNat ≠ 0xD7 then Char.ofNat (c.toNat + 32)
  else c

def jsToLowerStr (s : String) : String := ⟨s.data.map jsToLowerChar⟩

def jsTrimLeftList (l : List Char) : List Char := l.dropWhile isJsWs

def jsTrimRightList (l : List Char) : List Char := (l.reverse.dropWhile isJsWs).reverse

/-- `String.prototype.trim`. -/
def jsTrimList (l : List Char) : List Char := jsTrimRightList (jsTrimLeftList l)

def jsTrimStr (s : String) : String := ⟨jsTrimList s.data⟩

def jsTrimStartStr (s : String) : String := ⟨jsTrimLeftList s.data⟩

def strTake (s : String) (n : ℕ) : String := ⟨s.data.take n⟩

def strDrop (s : String) (n : ℕ) : String := ⟨s.data.drop n⟩

/-- `text.split(/\s+/)` on character lists: pieces between maximal
whitespace runs, with an empty piece at either boundary when the text
starts or ends with whitespace (JavaScript `split` semantics).  The
`skipping` flag is true while consuming a whitespace run. -/
def splitWsGo : List Char → List Char → Bool → List (List Char)
  | [], acc, _ => [acc.reverse]
  | c :: rest, acc, skipping =>
      if isJsWs c then
        if skipping then splitWsGo rest [] true
        else acc.reverse :: splitWsGo rest [] true
      else splitWsGo rest (c :: acc) false

def jsSplitWs (s : String) : List String :=
  (splitWsGo s.data [] false).map (fun l => ⟨l⟩)

/-- `s.split(c)` (single-character separator, empty pieces kept). -/
def splitCharGo (sep : Char) : List Char → List Char → List (List Char)
  | [], acc => [acc.reverse]
  | c :: rest, acc =>
      if c = sep then acc.reverse :: splitCharGo sep rest []
      else splitCharGo sep rest (c :: acc)

def jsSplitChar (sep : Char) (s : String) : List String :=
  (splitCharGo sep s.data []).map (fun l => ⟨l⟩)

/-- `s.split(/\n{2,}/)`: split at maximal runs of at least two newlines;
a single newline stays inside its piece.  In the `true` (skipping) state
we are inside a separator run of newlines. -/
def splitBlocksGo : Bool → List Char → List Char → List (List Char)
  | _, [], acc => [acc.reverse]
  | true, c :: rest, acc =>
      if c = '\n' then splitBlocksGo true rest acc
      else splitBlocksGo false rest (c :: acc)
  | false, [c], acc => [(c :: acc).reverse]
  | false, c1 :: c2 :: rest, acc =>
      if c1 = '\n' ∧ c2 = '\n' then acc.reverse :: splitBlocksGo true rest []
      else splitBlocksGo false (c2 :: rest) (c1 :: acc)

def jsSplitBlocks (s : String) : List String :=
  (splitBlocksGo false s.data [] ).map (fun l => ⟨l⟩)

/-- `Array.prototype.findIndex`. -/
def jsFindIndex (p : α → Bool) : List α → Option ℕ
  | [] => none
  | x :: xs => if p x then some 0 else (jsFindIndex p xs).map (· + 1)

/-- `lines.join(" ")`. -/
def joinSpace : List String → String
  | [] => ""
  | [s] => s
  | s :: ss => s ++ " " ++ joinSpace ss

/-- `lines.join("\n")`. -/
def joinNl : List String → String
  | [] => ""
  | [s] => s
  | s :: ss => s ++ "\n" ++ joinNl ss

/-! ### sanitize (Generador.tsx line 50) -/

/-- The character class kept by `sanitize`: tab, LF, CR, the printable
ASCII range U+0020 to U+007E, and the Latin-1 range U+00A0 to U+00FF. -/
def allowedChar (c : Char) : Bool :=
  c == '\t' || c == '\n' || c == '\r' ||
  (0x20 ≤ c.toNat && c.toNat ≤ 0x7E) || (0xA0 ≤ c.toNat && c.toNat ≤ 0xFF)

/-- `sanitize`: every character outside `allowedChar` becomes `'?'`;
newlines are untouched. -/
def sanitize (t : String) : String :=
  ⟨t.data.map (fun c => if allowedChar c then c else '?')⟩

/-! ### wrapAndConsume (Generador.tsx lines 56–89) -/

/-- The word loop of `wrapAndConsume`: `lines`/`cur` accumulate as in the
source; pushing a line that reaches `maxLines` triggers the `break`. -/
def wrapWords (w : String → ℚ) (mw : ℚ) (ml : ℕ) :
    List String → List String → String → List String × String
  | [], lines, cur => (lines, cur)
  | word :: rest, lines, cur =>
      let test := if cur = "" then word else cur ++ " " ++ word
      if w test ≤ mw then wrapWords w mw ml rest lines test
      else
        let lines2 := if cur = "" then lines ++ [word] else lines ++ [cur]
        if lines2.length = ml then (lines2, word)
        else wrapWords w mw ml rest lines2 word

/-- `wrapAndConsume(text, font, size, maxWidth, maxLines)`, with the
measured width `font.widthOfTextAtSize(s, size)` abstracted as `w`. -/
def wrapAndConsume (w : String → ℚ) (text : String) (mw : ℚ) (ml : ℕ) :
    List String × String :=
  let r := wrapWords w mw ml (jsSplitWs text) [] ""
  let lines := if r.1.length < ml ∧ r.2 ≠ "" then r.1 ++ [r.2] else r.1
  let consumed := joinSpace lines
  (lines, jsTrimStartStr (strDrop text consumed.length))

/-! ### Footer/stopword patterns (Generador.tsx lines 34–47, 91–92)

The regexes are executed with textbook nondeterministic semantics: a
matcher maps a character list to the list of all possible remainders, and
a pattern matches a string when some suffix admits a nonempty remainder
set.  This reproduces JavaScript backtracking exactly. -/

def isDigitCh (c : Char) : Bool := '0' ≤ c && c ≤ '9'

/-- Remainders of `\s*`. -/
def wsStarRems : List Char → List (List Char)
  | [] => [[]]
  | c :: rest => (c :: rest) :: (if isJsWs c then wsStarRems rest else [])

/-- Remainders of `\s+`. -/
def wsPlusRems : List Char → List (List Char)
  | [] => []
  | c :: rest => if isJsWs c then rest :: wsPlusRems rest else []

/-- Remainders of `\d+`. -/
def digitPlusRems : List Char → List (List Char)
  | [] => []
  | c :: rest => if isDigitCh c then rest :: digitPlusRems rest else []

/-- Case-insensitive literal: consume `pat` (given in lowercase) from the
front of `l`, comparing lowercased characters. -/
def litRem : List Char → List Char → Option (List Char)
  | [], l => some l
  | _ :: _, [] => none
  | p :: ps, c :: cs => if jsToLowerChar c = p then litRem ps cs else none

def remsBind (xs : List (List Char)) (f : List Char → List (List Char)) :
    List (List Char) :=
  (xs.map f).flatten

/-- Does `p` hold of some suffix of `l` (regex search without anchors)? -/
def anySuffix (p : List Char → Bool) : List Char → Bool
  | [] => p []
  | c :: rest => p (c :: rest) || anySuffix p rest

/-- A match of `Página\s+\d+\s+de\s+\d+` (case-insensitive) starting
exactly at `l`. -/
def paginaFooterHere (l : List Char) : Bool :=
  let r0 := (litRem "página".data l).toList
  let r1 := remsBind r0 wsPlusRems
  let r2 := remsBind r1 digitPlusRems
  let r3 := remsBind r2 wsPlusRems
  let r4 := (r3.filterMap (litRem "de".data))
  let r5 := remsBind r4 wsPlusRems
  r5.any (fun r => match r with | c :: _ => isDigitCh c | [] => false)

/-- `FOOTER_PATTERNS.some(rx => rx.test(s))` with
`FOOTER_PATTERNS = [/Página\s+\d+\s+de\s+\d+/i, /Copyright/i]`. -/
def footerPatternsTest (s : String) : Bool :=
  anySuffix paginaFooterHere s.data ||
  anySuffix (fun l => (litRem "copyright".data l).isSome) s.data

/-- A match of `(p(á|a)gina)\s*\d+\s*(de)?\s*\d+` (case-insensitive)
starting exactly at `l`. -/
def paginaLooseHere (l : List Char) : Bool :=
  let r0 := (litRem "página".data l).toList ++ (litRem "pagina".data l).toList
  let r1 := remsBind r0 wsStarRems
  let r2 := remsBind r1 digitPlusRems
  let r3 := remsBind r2 wsStarRems
  let r4 := r3.foldr (fun r acc => r :: (litRem "de".data r).toList ++ acc) []
  let r5 := remsBind r4 wsStarRems
  r5.any (fun r => match r with | c :: _ => isDigitCh c | [] => false)

/-- Case-insensitive substring occurrence of the (lowercase) pattern. -/
def containsSub (pat : String) (s : String) : Bool :=
  anySuffix (fun l => (litRem pat.data l).isSome) s.data

def HEADER_STOPWORDS : List String :=
  ["tm", "plataforma educativa", "horacio marchand", "diplomado",
   "aceleración comercial", "aceleraci6n comercial", "comercial",
   "para impulsar tu negocio", "text title", "text body"]

/-- `isStopwordLine`: the trimmed, lowercased line equals one of the
`HEADER_STOPWORDS` exactly. -/
def isStopwordLine (s : String) : Bool :=
  HEADER_STOPWORDS.any (fun w => jsToLowerStr (jsTrimStr s) = w)

/-! ### extractTitleAndBody (Generador.tsx lines 99–135) -/

/-- The `badTitle` predicate of `extractTitleAndBody`: lines that must
not become the title. -/
def badTitle (l : String) : Bool :=
  let s := jsTrimStr l
  let low := jsToLowerStr s
  if s = "" then true
  else if s.length < 3 then true
  else if 180 < s.length then true
  else if footerPatternsTest s then true
  else if isStopwordLine s then true
  else if anySuffix paginaLooseHere s.data then true
  else if containsSub "plataforma educativa" low ||
          containsSub "horacio marchand" low ||
          containsSub "diplomado" low then true
  else if containsSub "copyright" low then true
  else false

def startsNlNl : List Char → Bool
  | '\n' :: '\n' :: _ => true
  | _ => false

/-- `raw.replace(/[ \t]+\n/g, "\n")`: drop spaces/tabs that sit
immediately before a newline. -/
def stripWsNlList (l : List Char) : List Char :=
  l.foldr (fun c acc =>
    if (c == ' ' || c == '\t') && (acc.head? == some '\n') then acc
    else c :: acc) []

/-- `.replace(/\n{3,}/g, "\n\n")`: collapse every run of three or more
newlines to exactly two. -/
def collapseNlList (l : List Char) : List Char :=
  l.foldr (fun c acc => if c == '\n' && startsNlNl acc then acc else c :: acc) []

/-- The `cleaned` string of `extractTitleAndBody`: drop CR, strip
trailing blanks before newlines, collapse newline runs, trim. -/
def cleanedOf (raw : String) : String :=
  ⟨jsTrimList (collapseNlList (stripWsNlList (raw.data.filter (· ≠ '\r'))))⟩

/-- The `lines` array of `extractTitleAndBody`: split the cleaned text on
newlines, trim each line, and drop empty lines. -/
def goodLinesOf (raw : String) : List String :=
  ((jsSplitChar '\n' (cleanedOf raw)).map jsTrimStr).filter (fun l => l ≠ "")

/-- `extractTitleAndBody`: first non-`badTitle` line becomes the title
(truncated at 140 characters), the remaining lines joined by `"\n"`
become the body; with no usable title, the default title `"Sin título"`
is paired with the whole cleaned text. -/
def extractTitleAndBody (raw : String) : String × String :=
  let cleaned := cleanedOf raw
  let lines := goodLinesOf raw
  match jsFindIndex (fun l => !badTitle l) lines with
  | none => ("Sin título", cleaned)
  | some i =>
      let t := lines.getD i ""
      let title := if 140 < t.length then strTake t 140 ++ "…" else t
      (title, jsTrimStr (joinNl (lines.drop (i + 1))))

/-! ### Boilerplate filter of parsePdfToText (Generador.tsx lines 560–578) -/

/-- `Math.max(2, Math.ceil(numPages * 0.4))`, with the ceiling computed
exactly over the rationals. -/
def boilerplateThreshold (n : ℕ) : ℕ := max 2 ((2 * n + 4) / 5)

/-- On how many pages does a (lowercased) line occur?  Each page
contributes each distinct lowercased line at most once, exactly as the
per-page `Set` in the source. -/
def pageFreq (pls : List (List String)) (key : String) : ℕ :=
  (pls.filter (fun pg => pg.any (fun ln => jsToLowerStr ln = key))).length

/-- The repeated-line filter: a line is kept iff its lowercased form
occurs on fewer than `boilerplateThreshold` pages. -/
def filterBoiler (pls : List (List String)) : List (List String) :=
  pls.map (fun pg =>
    pg.filter (fun ln => pageFreq pls (jsToLowerStr ln) < boilerplateThreshold pls.length))

/-! ### Form-field (zone) resolution (Generador.tsx lines 357–376) -/

def hasTitleKw (n : String) : Bool := containsSub "title" (jsToLowerStr n)

def hasBodyKw (n : String) : Bool := containsSub "body" (jsToLowerStr n)

/-- The field-name resolution of `analyzeTemplateBytes` (executed when
`names.length > 0`): pick the first name containing `"title"`
(case-insensitively), else the first name; pick the first name containing
`"body"` when distinct from the title choice, else any other name,
else `""`. -/
def resolveFields (names : List String) : String × String :=
  let lowerNames := names.map jsToLowerStr
  let titleIdx := jsFindIndex (fun n => containsSub "title" n) lowerNames
  let bodyIdx := jsFindIndex (fun n => containsSub "body" n) lowerNames
  let resolvedTitle :=
    match titleIdx with
    | some i => names.getD i ""
    | none => names.headD ""
  let resolvedBody :=
    match bodyIdx with
    | some j =>
        if names.getD j "" ≠ resolvedTitle then names.getD j ""
        else ((names.find? (fun n => n ≠ resolvedTitle)).getD "")
    | none => (names.find? (fun n => n ≠ resolvedTitle)).getD ""
  (resolvedTitle, resolvedBody)

/-! ### Layout constants and rectangles (Generador.tsx lines 650–760) -/

def PAD : ℚ := 5
def FONT_TITLE : ℚ := 14
def LINE_H_TITLE : ℚ := 16
def FONT_BODY : ℚ := 11
def LINE_H : ℚ := 14

/-- A placement rectangle (`FieldRect` in the source), page coordinates
with bottom-left origin. -/
structure Rect where
  x : ℚ
  y : ℚ
  width : ℚ
  height : ℚ
deriving DecidableEq

/-- The computed layout of `generatePdf`: the title rectangle, the
first-page body rectangle and the per-page body rectangle choice. -/
structure Layout where
  titleRect : Rect
  bodyRectFirst : Rect
  flowRect : Rect
  rectForPage : ℕ → Rect

/-- Lines 657–749 of `generatePdf`: decide whether form fields are used,
pick the adaptive margins, and build the title/body/flow rectangles and
the per-page rectangle choice `rectForPage`. -/
def computeLayout (pageW pageH : ℚ) (detected : List String)
    (rects : String → Option Rect) (tf bf : String) (isPlantilla3 : Bool) :
    Layout :=
  let hasTitleField := decide (detected ≠ []) && (tf ≠ "") && (rects tf).isSome
  let hasBodyField := decide (1 < detected.length) && (bf ≠ "") && (bf ≠ tf) &&
    (rects bf).isSome
  let usingFormFields := (hasTitleField || hasBodyField) && decide (detected ≠ [])
  let marginX : ℚ := if usingFormFields then 72 else 48
  let bottomMargin : ℚ := if usingFormFields then 72 else 96
  let topMarginFirst : ℚ :=
    if usingFormFields then 140 else (if isPlantilla3 then 110 else 80)
  let topBandFlow : ℚ := if usingFormFields then 72 else 80
  let titleRect :=
    if hasTitleField then (rects tf).getD ⟨0, 0, 0, 0⟩
    else ⟨marginX, pageH - topMarginFirst, pageW - marginX * 2, 32⟩
  let bodyRectFirst :=
    if hasBodyField then (rects bf).getD ⟨0, 0, 0, 0⟩
    else ⟨marginX, bottomMargin, pageW - marginX * 2,
      max (titleRect.y - 16 - bottomMargin) (LINE_H * 4)⟩
  let flowRect : Rect :=
    ⟨marginX, bottomMargin, pageW - marginX * 2, pageH - bottomMargin - topBandFlow⟩
  let flowRectWithTitle : Option Rect :=
    if hasBodyField then
      some ⟨bodyRectFirst.x, bodyRectFirst.y, bodyRectFirst.width,
        bodyRectFirst.height + (titleRect.height + 8)⟩
    else none
  { titleRect := titleRect
    bodyRectFirst := bodyRectFirst
    flowRect := flowRect
    rectForPage := fun i =>
      if hasBodyField then
        (if i = 0 then bodyRectFirst else flowRectWithTitle.getD bodyRectFirst)
      else (if i = 0 then bodyRectFirst else flowRect) }

/-! ### The body-flow pagination loop (Generador.tsx lines 784–866)

The loop is modelled as a state machine.  A `FlowPage` records the page
index in the output document, the body rectangle selected for it, and the
text runs drawn on it by the flow (a fresh page produced by
`ensureNewPage` starts with no runs: the source clones it with
`copyPages` from `srcTemplate`, a pristine second load of the template
bytes that is never drawn into, so a clone carries only the template's
static content and never previously rendered text). -/

/-- A placed text run (`drawText` call): text, position, font size, and
whether the bold title font was used. -/
structure Run where
  text : String
  x : ℚ
  y : ℚ
  size : ℚ
  bold : Bool
deriving DecidableEq

structure FlowPage where
  idx : ℕ
  rect : Rect
  runs : List Run
deriving DecidableEq

/-- The mutable state of the loop: finished pages (most recent first),
the current page, the cursor `currentY`, and the index the next created
page will receive (`pdfDoc.getPageCount()`). -/
structure FlowSt where
  done : List FlowPage
  cur : FlowPage
  y : ℚ
  nextIdx : ℕ

/-- `currentY` starts at `rect.y + rect.height - PAD - FONT_BODY`, the
top of the zone. -/
def rectTopY (r : Rect) : ℚ := r.y + r.height - PAD - FONT_BODY

/-- The overflow threshold `rect.y + PAD + FONT_BODY` of `lineTooLow`. -/
def rectMinY (r : Rect) : ℚ := r.y + PAD + FONT_BODY

/-- Initial state: the current page is page 0 with `rectForPage(0)`, the
cursor is at the top of that rectangle, and the next created page gets
index `tplPages` (the template's page count). -/
def initSt (rectFor : ℕ → Rect) (tplPages : ℕ) : FlowSt :=
  { done := [], cur := ⟨0, rectFor 0, []⟩, y := rectTopY (rectFor 0),
    nextIdx := tplPages }

/-- `ensureNewPage`: clone the template's first page (no runs yet), select
`rectForPage` of its index, and reset the cursor to the top of that
rectangle. -/
def ensureNewPage (rectFor : ℕ → Rect) (st : FlowSt) : FlowSt :=
  { done := st.cur :: st.done,
    cur := ⟨st.nextIdx, rectFor st.nextIdx, []⟩,
    y := rectTopY (rectFor st.nextIdx),
    nextIdx := st.nextIdx + 1 }

/-- `lineTooLow()`: the cursor is below `rect.y + PAD + FONT_BODY`. -/
def lineTooLow (st : FlowSt) : Bool := st.y < rectMinY st.cur.rect

/-- `if (lineTooLow()) await ensureNewPage()`. -/
def breakIfLow (rectFor : ℕ → Rect) (st : FlowSt) : FlowSt :=
  if lineTooLow st then ensureNewPage rectFor st else st

/-- A `drawText` at `(rect.x + PAD, currentY)` in the body font followed
by `currentY -= LINE_H`. -/
def emit (s : String) (st : FlowSt) : FlowSt :=
  { st with
    cur := { st.cur with
      runs := st.cur.runs ++ [⟨s, st.cur.rect.x + PAD, st.y, FONT_BODY, false⟩] }
    y := st.y - LINE_H }

/-- `currentY -= LINE_H` alone (spacer and inter-block spacing). -/
def decY (st : FlowSt) : FlowSt := { st with y := st.y - LINE_H }

/-- The inner word loop of the body flow (lines 827–847).  `mw` is the
`maxWidth` captured before the loop; on a width overflow the current line
is flushed (after the overflow check) and the word starts the new line. -/
def flowWords (meas : String → ℚ) (rectFor : ℕ → Rect) (mw : ℚ) :
    List String → String → FlowSt → String × FlowSt
  | [], cur, st => (cur, st)
  | word :: rest, cur, st =>
      let test := if cur = "" then word else cur ++ " " ++ word
      if meas test ≤ mw then flowWords meas rectFor mw rest test st
      else
        let st1 := breakIfLow rectFor st
        let st2 := if cur = "" then st1 else emit (sanitize cur) st1
        flowWords meas rectFor mw rest word st2

/-- One logical line (lines 814–860): a line that is blank after trimming
is a spacer; otherwise its words are wrapped against the `maxWidth` of
the page that was current when the line started, and the final partial
line is flushed. -/
def flowLine (meas : String → ℚ) (rectFor : ℕ → Rect) (logical : String)
    (st : FlowSt) : FlowSt :=
  if jsTrimStr logical = "" then decY (breakIfLow rectFor st)
  else
    let words := (jsSplitWs logical).filter (fun w => w ≠ "")
    let mw := st.cur.rect.width - PAD * 2
    let r := flowWords meas rectFor mw words "" st
    if r.1 = "" then r.2 else emit (sanitize r.1) (breakIfLow rectFor r.2)

def flowLines (meas : String → ℚ) (rectFor : ℕ → Rect) :
    List String → FlowSt → FlowSt
  | [], st => st
  | l :: ls, st => flowLines meas rectFor ls (flowLine meas rectFor l st)

/-- One block: its logical lines are the plain `"\n"` split. -/
def flowBlock (meas : String → ℚ) (rectFor : ℕ → Rect) (block : String)
    (st : FlowSt) : FlowSt :=
  flowLines meas rectFor (jsSplitChar '\n' block) st

/-- The block loop (lines 810–866): after every block except the last,
one extra line height of spacing, subject to the same overflow check. -/
def flowBlocks (meas : String → ℚ) (rectFor : ℕ → Rect) :
    List String → FlowSt → FlowSt
  | [], st => st
  | [b], st => flowBlock meas rectFor b st
  | b :: b2 :: bs, st =>
      flowBlocks meas rectFor (b2 :: bs)
        (decY (breakIfLow rectFor (flowBlock meas rectFor b st)))

/-- `normalizeBody`: drop CR and turn U+2028/U+2029 into newlines. -/
def normalizeBody (s : String) : String :=
  ⟨(s.data.filter (· ≠ '\r')).map
    (fun c => if c = '\u2028' ∨ c = '\u2029' then '\n' else c)⟩

/-- The `blocks` array (lines 788–791): split on runs of two or more
newlines, strip trailing whitespace, and drop blank blocks. -/
def blocksOf (s : String) : List String :=
  ((jsSplitBlocks s).map (fun b => ⟨jsTrimRightList b.data⟩)).filter
    (fun b => jsTrimStr b ≠ "")

/-- The whole body flow: run the block loop from the initial state and
list the touched pages in document order. -/
def flowBody (meas : String → ℚ) (rectFor : ℕ → Rect) (tplPages : ℕ)
    (body : String) : List FlowPage :=
  let st := flowBlocks meas rectFor (blocksOf (normalizeBody body))
    (initSt rectFor tplPages)
  (st.cur :: st.done).reverse

/-! ### Title placement and the full render plan (lines 762–782) -/

/-- `Math.max(1, Math.floor(titleRect.height / LINE_H_TITLE))`. -/
def titleMaxLines (h : ℚ) : ℕ := (max 1 ⌊h / LINE_H_TITLE⌋).toNat

/-- The wrapped title lines: `wrapAndConsume(sanitize(title || "Sin
título"), titleFont, FONT_TITLE, titleRect.width - PAD*2, maxLines)`. -/
def titleLinesOf (wT : String → ℚ) (titleRect : Rect) (title : String) :
    List String :=
  (wrapAndConsume wT (sanitize (if title = "" then "Sin título" else title))
    (titleRect.width - PAD * 2) (titleMaxLines titleRect.height)).1

/-- The `tLines.forEach` loop: successive title lines at `x + PAD`,
starting at the top of the title rectangle, descending by
`LINE_H_TITLE`, in the bold title font. -/
def placeTitleLines (x : ℚ) : ℚ → List String → List Run
  | _, [] => []
  | ty, l :: ls => ⟨l, x, ty, FONT_TITLE, true⟩ :: placeTitleLines x (ty - LINE_H_TITLE) ls

/-- The text runs placed by one generation: the body flow on every page,
plus the title lines drawn on page 0 only. -/
def generatePlan (wT wB : String → ℚ) (titleRect : Rect) (rectFor : ℕ → Rect)
    (tplPages : ℕ) (title body : String) : List FlowPage :=
  let tRuns := placeTitleLines (titleRect.x + PAD)
    (titleRect.y + titleRect.height - PAD - FONT_TITLE)
    (titleLinesOf wT titleRect title)
  (flowBody wB rectFor tplPages body).map
    (fun p => if p.idx = 0 then { p with runs := tRuns ++ p.runs } else p)

/-! ### Invariant preservation through the flow loop

Every mutation of the flow state is one of three composite steps: a bare
overflow check (`breakIfLow`), a spacer or inter-block advance
(`decY` after `breakIfLow`), or an emission after the overflow check
(`emit (sanitize s)` after `breakIfLow`).  Any predicate preserved by the
three steps is an invariant of the whole loop. -/

section FlowInv

variable (meas : String → ℚ) (rectFor : ℕ → Rect) {P : FlowSt → Prop}

theorem flowWords_inv (hB : ∀ st, P st → P (breakIfLow rectFor st))
    (hE : ∀ s st, P st → P (emit (sanitize s) (breakIfLow rectFor st)))
    (mw : ℚ) :
    ∀ ws cur st, P st → P (flowWords meas rectFor mw ws cur st).2 := by
  intro ws
  induction ws with
  | nil => intro cur st h; exact h
  | cons word rest ih =>
      intro cur st h
      simp only [flowWords]
      by_cases htest : meas (if cur = "" then word else cur ++ " " ++ word) ≤ mw
      · rw [if_pos htest]
        exact ih _ _ h
      · rw [if_neg htest]
        by_cases hcur : cur = ""
        · rw [if_pos hcur]
          exact ih _ _ (hB _ h)
        · rw [if_neg hcur]
          exact ih _ _ (hE _ _ h)

theorem flowLine_inv (hB : ∀ st, P st → P (breakIfLow rectFor st))
    (hD : ∀ st, P st → P (decY st))
    (hE : ∀ s st, P st → P (emit (sanitize s) (breakIfLow rectFor st))) :
    ∀ l st, P st → P (flowLine meas rectFor l st) := by
  intro l st h
  simp only [flowLine]
  by_cases hsp : jsTrimStr l = ""
  · rw [if_pos hsp]
    exact hD _ (hB _ h)
  · rw [if_neg hsp]
    by_cases hflush : (flowWords meas rectFor (st.cur.rect.width - PAD * 2)
        ((jsSplitWs l).filter (fun w => w ≠ "")) "" st).1 = ""
    · rw [if_pos hflush]
      exact flowWords_inv meas rectFor hB hE _ _ _ _ h
    · rw [if_neg hflush]
      exact hE _ _ (flowWords_inv meas rectFor hB hE _ _ _ _ h)

theorem flowLines_inv (hB : ∀ st, P st → P (breakIfLow rectFor st))
    (hD : ∀ st, P st → P (decY st))
    (hE : ∀ s st, P st → P (emit (sanitize s) (breakIfLow rectFor st))) :
    ∀ ls st, P st → P (flowLines meas rectFor ls st) := by
  intro ls
  induction ls with
  | nil => intro st h; exact h
  | cons l ls ih =>
      intro st h
      simp only [flowLines]
      exact ih _ (flowLine_inv meas rectFor hB hD hE _ _ h)

theorem flowBlocks_inv (hB : ∀ st, P st → P (breakIfLow rectFor st))
    (hD : ∀ st, P st → P (decY st))
    (hE : ∀ s st, P st → P (emit (sanitize s) (breakIfLow rectFor st))) :
    ∀ bs st, P st → P (flowBlocks meas rectFor bs st) := by
  intro bs
  induction bs with
  | nil => intro st h; exact h
  | cons b bs ih =>
      intro st h
      cases bs with
      | nil =>
          exact flowLines_inv meas rectFor hB hD hE (jsSplitChar '\n' b) st h
      | cons b2 bs2 =>
          simp only [flowBlocks]
          exact ih _ (hD _ (hB _
            (flowLines_inv meas rectFor hB hD hE _ _ h)))

end FlowInv

/-! ### C7: degenerate zones -/

/-- The loop invariant for a constant zone of non-positive height: every
page uses the zone and carries at most one run, and the cursor never
exceeds the zone top. -/
def c7Inv (rect : Rect) (st : FlowSt) : Prop :=
  st.cur.rect = rect ∧ st.cur.runs.length ≤ 1 ∧ st.y ≤ rectTopY rect ∧
  ∀ p ∈ st.done, p.rect = rect ∧ p.runs.length ≤ 1

theorem rectTop_lt_min_of_deg {rect : Rect} (h : rect.height ≤ 0) :
    rectTopY rect < rectMinY rect := by
  simp only [rectTopY, rectMinY, PAD, FONT_BODY]
  linarith

theorem c7Inv_breakIfLow {rect : Rect} (st : FlowSt)
    (h : c7Inv rect st) :
    c7Inv rect (breakIfLow (fun _ => rect) st) := by
  obtain ⟨h1, h2, h3, h4⟩ := h
  unfold breakIfLow
  split
  · refine ⟨rfl, by simp [ensureNewPage], le_refl _, ?_⟩
    intro p hp
    rcases List.mem_cons.1 hp with hp | hp
    · exact hp ▸ ⟨h1, h2⟩
    · exact h4 p hp
  · exact ⟨h1, h2, h3, h4⟩

theorem c7Inv_deg_break_eq {rect : Rect} (hdeg : rect.height ≤ 0)
    (st : FlowSt) (h : c7Inv rect st) :
    breakIfLow (fun _ => rect) st = ensureNewPage (fun _ => rect) st := by
  obtain ⟨h1, _, h3, _⟩ := h
  unfold breakIfLow
  rw [if_pos]
  simp only [lineTooLow, h1, decide_eq_true_eq]
  exact lt_of_le_of_lt h3 (rectTop_lt_min_of_deg hdeg)

/-- C7 (amended): with a zone of non-positive height generation does not
fail; the flow proceeds with that zone, requesting a fresh page before
every emitted line, so each output page carries at most one text run, and
the pass terminates with at least one page.  (The claimed `DegenerateZone`
failure does not exist in the code: `generatePdf` performs no dimension
check at all; see the counterexample.) -/
theorem c7_degenerate_amended (meas : String → ℚ) (rect : Rect)
    (tplPages : ℕ) (body : String) (hdeg : rect.height ≤ 0) :
    flowBody meas (fun _ => rect) tplPages body ≠ [] ∧
    ∀ p ∈ flowBody meas (fun _ => rect) tplPages body,
      p.rect = rect ∧ p.runs.length ≤ 1 := by
  have hB : ∀ st, c7Inv rect st → c7Inv rect (breakIfLow (fun _ => rect) st) :=
    c7Inv_breakIfLow
  have hD : ∀ st, c7Inv rect st → c7Inv rect (decY st) := by
    intro st ⟨h1, h2, h3, h4⟩
    refine ⟨h1, h2, ?_, h4⟩
    simp only [decY]
    have : (0:ℚ) ≤ LINE_H := by norm_num [LINE_H]
    linarith
  have hE : ∀ s st, c7Inv rect st →
      c7Inv rect (emit (sanitize s) (breakIfLow (fun _ => rect) st)) := by
    intro s st h
    rw [c7Inv_deg_break_eq hdeg st h]
    obtain ⟨h1, h2, h3, h4⟩ := h
    refine ⟨rfl, by simp [emit, ensureNewPage], ?_, ?_⟩
    · simp only [emit, ensureNewPage]
      have : (0:ℚ) ≤ LINE_H := by norm_num [LINE_H]
      linarith
    · intro p hp
      simp only [emit, ensureNewPage] at hp
      rcases List.mem_cons.1 hp with hp | hp
      · exact hp ▸ ⟨h1, h2⟩
      · exact h4 p hp
  have hfin : c7Inv rect (flowBlocks meas (fun _ => rect)
      (blocksOf (normalizeBody body)) (initSt (fun _ => rect) tplPages)) := by
    refine flowBlocks_inv meas (fun _ => rect) hB hD hE _ _ ?_
    exact ⟨rfl, by simp [initSt], le_refl _, by simp [initSt]⟩
  obtain ⟨h1, h2, h3, h4⟩ := hfin
  constructor
  · simp [flowBody]
  · intro p hp
    simp only [flowBody, List.mem_reverse] at hp
    rcases List.mem_cons.1 hp with hp | hp
    · exact hp ▸ ⟨h1, h2⟩
    · exact h4 p hp

set_option maxRecDepth 10000 in
/-- Counterexample to C7: the claim says a zone with non-positive height
makes generation fail with a `DegenerateZone` error rather than
proceeding with that zone.  In fact no such error exists: with the
degenerate zone of height `0` below, the flow proceeds, places the body
text inside that very zone (on a freshly requested page), and returns
normally. -/
theorem c7_degenerate_zone_cex :
    flowBody (fun _ => (0:ℚ)) (fun _ => ⟨10, 10, 100, 0⟩) 1 "hola" =
      [⟨0, ⟨10, 10, 100, 0⟩, []⟩,
       ⟨1, ⟨10, 10, 100, 0⟩, [⟨"hola", 15, -6, 11, false⟩]⟩] := by
  with_unfolding_all decide

/-- Witness for `c7_degenerate_amended` at a concrete degenerate zone. -/
theorem c7_degenerate_amended_witness :
    ((10:ℚ) ≤ 0 → False) ∧ ((0:ℚ) ≤ 0) ∧
    (flowBody (fun _ => (0:ℚ)) (fun _ => ⟨10, 10, 100, 0⟩) 1 "hola" ≠ [] ∧
     ∀ p ∈ flowBody (fun _ => (0:ℚ)) (fun _ => ⟨10, 10, 100, 0⟩) 1 "hola",
       p.rect = ⟨10, 10, 100, 0⟩ ∧ p.runs.length ≤ 1) :=
  ⟨by norm_num, by norm_num,
   c7_degenerate_amended (fun _ => (0:ℚ)) ⟨10, 10, 100, 0⟩ 1 "hola" (by norm_num)⟩

/-! ### C8: termination and the linear page bound -/

/-- Page count of a flow state (finished pages plus the current one). -/
def pageCountSt (st : FlowSt) : ℕ := st.done.length + 1

/-- Cost of one logical line: its word count plus one; each unit pays for
at most one `ensureNewPage`. -/
def lineCost (l : String) : ℕ :=
  ((jsSplitWs l).filter (fun w => w ≠ "")).length + 1

/-- Cost of a block: the cost of its logical lines plus one for the
inter-block spacing. -/
def blockCost (b : String) : ℕ :=
  ((jsSplitChar '\n' b).map lineCost).sum + 1

theorem pageCountSt_breakIfLow (rectFor : ℕ → Rect) (st : FlowSt) :
    pageCountSt (breakIfLow rectFor st) ≤ pageCountSt st + 1 := by
  unfold breakIfLow
  split
  · simp [pageCountSt, ensureNewPage]
  · simp [pageCountSt]

theorem pageCountSt_emit (s : String) (st : FlowSt) :
    pageCountSt (emit s st) = pageCountSt st := rfl

theorem pageCountSt_decY (st : FlowSt) :
    pageCountSt (decY st) = pageCountSt st := rfl

theorem flowWords_pageCount (meas : String → ℚ) (rectFor : ℕ → Rect)
    (mw : ℚ) :
    ∀ ws cur st, pageCountSt (flowWords meas rectFor mw ws cur st).2 ≤
      pageCountSt st + ws.length := by
  intro ws
  induction ws with
  | nil => intro cur st; simp [flowWords]
  | cons word rest ih =>
      intro cur st
      simp only [flowWords, List.length_cons]
      by_cases htest : meas (if cur = "" then word else cur ++ " " ++ word) ≤ mw
      · rw [if_pos htest]
        have := ih (if cur = "" then word else cur ++ " " ++ word) st
        omega
      · rw [if_neg htest]
        have hb := pageCountSt_breakIfLow rectFor st
        by_cases hcur : cur = ""
        · rw [if_pos hcur]
          have := ih word (breakIfLow rectFor st)
          omega
        · rw [if_neg hcur]
          have h1 := ih word (emit (sanitize cur) (breakIfLow rectFor st))
          rw [pageCountSt_emit] at h1
          omega

theorem flowLine_pageCount (meas : String → ℚ) (rectFor : ℕ → Rect)
    (l : String) (st : FlowSt) :
    pageCountSt (flowLine meas rectFor l st) ≤ pageCountSt st + lineCost l := by
  simp only [flowLine, lineCost]
  split
  · rw [pageCountSt_decY]
    have := pageCountSt_breakIfLow rectFor st
    omega
  · split
    · have := flowWords_pageCount meas rectFor
        (st.cur.rect.width - PAD * 2)
        ((jsSplitWs l).filter (fun w => w ≠ "")) "" st
      omega
    · rw [pageCountSt_emit]
      have h1 := pageCountSt_breakIfLow rectFor
        (flowWords meas rectFor (st.cur.rect.width - PAD * 2)
          ((jsSplitWs l).filter (fun w => w ≠ "")) "" st).2
      have h2 := flowWords_pageCount meas rectFor
        (st.cur.rect.width - PAD * 2)
        ((jsSplitWs l).filter (fun w => w ≠ "")) "" st
      omega

theorem flowLines_pageCount (meas : String → ℚ) (rectFor : ℕ → Rect) :
    ∀ ls st, pageCountSt (flowLines meas rectFor ls st) ≤
      pageCountSt st + (ls.map lineCost).sum := by
  intro ls
  induction ls with
  | nil => intro st; simp [flowLines]
  | cons l ls ih =>
      intro st
      simp only [flowLines, List.map_cons, List.sum_cons]
      have h1 := flowLine_pageCount meas rectFor l st
      have h2 := ih (flowLine meas rectFor l st)
      omega

theorem flowBlocks_pageCount (meas : String → ℚ) (rectFor : ℕ → Rect) :
    ∀ bs st, pageCountSt (flowBlocks meas rectFor bs st) ≤
      pageCountSt st + (bs.map blockCost).sum := by
  intro bs
  induction bs with
  | nil => intro st; simp [flowBlocks]
  | cons b bs ih =>
      intro st
      cases bs with
      | nil =>
          simp only [flowBlocks, flowBlock, List.map_cons, List.map_nil,
            List.sum_cons, List.sum_nil, blockCost]
          have := flowLines_pageCount meas rectFor (jsSplitChar '\n' b) st
          omega
      | cons b2 bs2 =>
          simp only [flowBlocks, List.map_cons, List.sum_cons]
          have hcb : blockCost b = ((jsSplitChar '\n' b).map lineCost).sum + 1 := rfl
          have hf : (List.map blockCost (b2 :: bs2)).sum =
              blockCost b2 + (List.map blockCost bs2).sum := by simp
          have h1 := flowLines_pageCount meas rectFor (jsSplitChar '\n' b) st
          have h2 := pageCountSt_breakIfLow rectFor
            (flowBlock meas rectFor b st)
          have h3 := ih (decY (breakIfLow rectFor (flowBlock meas rectFor b st)))
          rw [pageCountSt_decY] at h3
          simp only [flowBlock] at h1 h2 h3 ⊢
          omega

/-- C8: the flow pass always terminates (the loop is a structurally
recursive function of the word, line and block lists), and the number of
output pages is bounded linearly by the input: one initial page plus at
most one page per word, per logical line and per block, matching the
claimed `O(words + pages)` step count — even when a single word is wider
than every zone, since an over-wide word still only pays one
`ensureNewPage` per flushed line. -/
theorem c8_flow_page_bound (meas : String → ℚ) (rectFor : ℕ → Rect)
    (tplPages : ℕ) (body : String) :
    (flowBody meas rectFor tplPages body).length ≤
      1 + ((blocksOf (normalizeBody body)).map blockCost).sum := by
  have h := flowBlocks_pageCount meas rectFor (blocksOf (normalizeBody body))
    (initSt rectFor tplPages)
  have hinit : pageCountSt (initSt rectFor tplPages) = 1 := rfl
  have hpc : (flowBlocks meas rectFor (blocksOf (normalizeBody body))
      (initSt rectFor tplPages)).done.length + 1 =
      pageCountSt (flowBlocks meas rectFor (blocksOf (normalizeBody body))
        (initSt rectFor tplPages)) := rfl
  simp only [flowBody, List.length_reverse, List.length_cons]
  omega

/-! ### C1: cursor discipline and pagination -/

/-- What C1 requires of every finished page: the body rectangle is the
one selected for the page's index; the runs were laid down top to bottom
with at least one line height between consecutive runs; and every run
sits on the `LINE_H` grid below the zone top (the cursor starts at
`rectTopY` and only ever moves down in `LINE_H` steps), never below the
`rectMinY` threshold. -/
def pageOk (rectFor : ℕ → Rect) (p : FlowPage) : Prop :=
  p.rect = rectFor p.idx ∧
  List.Pairwise (fun a b => b.y + LINE_H ≤ a.y) p.runs ∧
  ∀ r ∈ p.runs, rectMinY p.rect ≤ r.y ∧
    ∃ k : ℕ, r.y = rectTopY p.rect - LINE_H * k

/-- First-page tracking: the oldest page of the pass (the last of
`done`, or the current page when nothing is finished) is page 0 with
`rectForPage 0`. -/
def firstPageOk (rectFor : ℕ → Rect) (st : FlowSt) : Prop :=
  match st.done.getLast? with
  | none => st.cur.idx = 0 ∧ st.cur.rect = rectFor 0
  | some p => p.idx = 0 ∧ p.rect = rectFor 0

/-- The C1 loop invariant. -/
def c1Inv (rectFor : ℕ → Rect) (st : FlowSt) : Prop :=
  st.cur.rect = rectFor st.cur.idx ∧
  (∃ k : ℕ, st.y = rectTopY st.cur.rect - LINE_H * k) ∧
  (∀ r ∈ st.cur.runs, rectMinY st.cur.rect ≤ r.y ∧
    (∃ k : ℕ, r.y = rectTopY st.cur.rect - LINE_H * k) ∧
    st.y + LINE_H ≤ r.y) ∧
  List.Pairwise (fun a b => b.y + LINE_H ≤ a.y) st.cur.runs ∧
  (∀ p ∈ st.done, pageOk rectFor p) ∧
  firstPageOk rectFor st

theorem c1Inv_breakIfLow (rectFor : ℕ → Rect) (st : FlowSt)
    (h : c1Inv rectFor st) : c1Inv rectFor (breakIfLow rectFor st) := by
  obtain ⟨h1, h2, h3, h4, h5, h6⟩ := h
  unfold breakIfLow
  split
  · refine ⟨rfl, ⟨0, by simp [ensureNewPage]⟩, by simp [ensureNewPage],
      by simp [ensureNewPage], ?_, ?_⟩
    · intro p hp
      simp only [ensureNewPage] at hp
      rcases List.mem_cons.1 hp with hp | hp
      · subst hp
        exact ⟨h1, h4, fun r hr => ⟨(h3 r hr).1, (h3 r hr).2.1⟩⟩
      · exact h5 p hp
    · simp only [firstPageOk, ensureNewPage] at h6 ⊢
      cases hd : st.done with
      | nil => simpa [hd, List.getLast?] using h6
      | cons d ds =>
          rw [List.getLast?_cons_cons]
          simpa [hd] using h6
  · exact ⟨h1, h2, h3, h4, h5, h6⟩

theorem c1Inv_decY (rectFor : ℕ → Rect) (st : FlowSt)
    (h : c1Inv rectFor st) : c1Inv rectFor (decY st) := by
  obtain ⟨h1, ⟨k, hk⟩, h3, h4, h5, h6⟩ := h
  refine ⟨h1, ⟨k + 1, ?_⟩, ?_, h4, h5, ?_⟩
  · simp only [decY, hk]
    push_cast
    ring
  · intro r hr
    obtain ⟨ha, hb, hc⟩ := h3 r hr
    refine ⟨ha, hb, ?_⟩
    simp only [decY]
    have hL : (0:ℚ) < LINE_H := by norm_num [LINE_H]
    linarith
  · simpa [firstPageOk, decY] using h6

theorem c1_break_min (rectFor : ℕ → Rect) (st : FlowSt)
    (h32 : ∀ i, (32:ℚ) ≤ (rectFor i).height) :
    rectMinY (breakIfLow rectFor st).cur.rect ≤ (breakIfLow rectFor st).y := by
  unfold breakIfLow
  split
  · simp only [ensureNewPage, rectMinY, rectTopY, PAD, FONT_BODY]
    have := h32 st.nextIdx
    linarith
  · next hlow =>
      simp only [lineTooLow, decide_eq_true_eq] at hlow
      exact le_of_not_lt hlow

theorem c1Inv_emit (rectFor : ℕ → Rect) (s : String) (st : FlowSt)
    (h : c1Inv rectFor st) (hge : rectMinY st.cur.rect ≤ st.y) :
    c1Inv rectFor (emit s st) := by
  obtain ⟨h1, ⟨k, hk⟩, h3, h4, h5, h6⟩ := h
  have hL : (0:ℚ) < LINE_H := by norm_num [LINE_H]
  refine ⟨h1, ⟨k + 1, ?_⟩, ?_, ?_, h5, ?_⟩
  · simp only [emit, hk]
    push_cast
    ring
  · intro r hr
    simp only [emit, List.mem_append, List.mem_singleton] at hr
    rcases hr with hr | hr
    · obtain ⟨ha, hb, hc⟩ := h3 r hr
      exact ⟨ha, hb, by simp only [emit]; linarith⟩
    · subst hr
      exact ⟨hge, ⟨k, hk⟩, by simp only [emit]; linarith⟩
  · simp only [emit]
    rw [List.pairwise_append]
    refine ⟨h4, List.pairwise_singleton _ _, ?_⟩
    intro a ha b hb
    rw [List.mem_singleton] at hb
    subst hb
    have := (h3 a ha).2.2
    simpa using this
  · simpa [firstPageOk, emit] using h6

/-- C1: for every body text and zone assignment (as long as every zone
is at least `2 * (PAD + FONT_BODY) = 32` points tall, so that the top of
a zone lies above the overflow threshold), the body flow obeys the
claimed cursor discipline: the cursor starts at
`zone.y + zone.height - PAD - FONT_BODY`; every page's runs lie on the
`LINE_H` grid descending from the top of that page's zone, consecutive
runs are at least one line height apart, and no run is ever placed below
`zone.y + PAD + FONT_BODY`; every page (current page 0 as well as every
page requested by `ensureNewPage`) uses exactly the body rectangle
selected for its document index, and a requested page starts with no
runs (the clone carries only template content, never previously rendered
text); the first output page is page 0. -/
theorem c1_cursor_pagination (meas : String → ℚ) (rectFor : ℕ → Rect)
    (tplPages : ℕ) (body : String)
    (h32 : ∀ i, (32:ℚ) ≤ (rectFor i).height) :
    (initSt rectFor tplPages).y
        = (rectFor 0).y + (rectFor 0).height - PAD - FONT_BODY ∧
    flowBody meas rectFor tplPages body ≠ [] ∧
    (∃ p, (flowBody meas rectFor tplPages body).head? = some p ∧
      p.idx = 0 ∧ p.rect = rectFor 0) ∧
    ∀ p ∈ flowBody meas rectFor tplPages body, pageOk rectFor p := by
  have hB : ∀ st, c1Inv rectFor st → c1Inv rectFor (breakIfLow rectFor st) :=
    c1Inv_breakIfLow rectFor
  have hD : ∀ st, c1Inv rectFor st → c1Inv rectFor (decY st) :=
    c1Inv_decY rectFor
  have hE : ∀ s st, c1Inv rectFor st →
      c1Inv rectFor (emit (sanitize s) (breakIfLow rectFor st)) := by
    intro s st h
    exact c1Inv_emit rectFor _ _ (hB _ h) (c1_break_min rectFor st h32)
  have hinit : c1Inv rectFor (initSt rectFor tplPages) := by
    refine ⟨rfl, ⟨0, by simp [initSt]⟩, by simp [initSt], by simp [initSt],
      by simp [initSt], ?_⟩
    simp [firstPageOk, initSt]
  have hfin := flowBlocks_inv meas rectFor hB hD hE
    (blocksOf (normalizeBody body)) _ hinit
  obtain ⟨h1, h2, h3, h4, h5, h6⟩ := hfin
  set stf := flowBlocks meas rectFor (blocksOf (normalizeBody body))
    (initSt rectFor tplPages) with hstf
  refine ⟨rfl, by simp [flowBody], ?_, ?_⟩
  · rw [flowBody]
    rw [List.head?_reverse]
    simp only [firstPageOk] at h6
    cases hd : stf.done with
    | nil =>
        refine ⟨stf.cur, by simp [hd], ?_⟩
        rw [hd] at h6
        simpa using h6
    | cons d ds =>
        rw [List.getLast?_cons_cons]
        rw [hd] at h6
        cases hq : (d :: ds).getLast? with
        | none => simp at hq
        | some p =>
            refine ⟨p, rfl, ?_⟩
            rw [hq] at h6
            simpa using h6
  · intro p hp
    simp only [flowBody, List.mem_reverse] at hp
    rcases List.mem_cons.1 hp with hp | hp
    · subst hp
      exact ⟨h1, h4, fun r hr => ⟨(h3 r hr).1, (h3 r hr).2.1⟩⟩
    · exact h5 p hp

/-- Witness for `c1_cursor_pagination` at a concrete measurement, zone
assignment and body. -/
theorem c1_cursor_pagination_witness :
    (∀ i : ℕ, (32:ℚ) ≤ ((fun _ : ℕ => (⟨48, 96, 516, 600⟩ : Rect)) i).height) ∧
    ((initSt (fun _ : ℕ => (⟨48, 96, 516, 600⟩ : Rect)) 1).y
        = ((⟨48, 96, 516, 600⟩ : Rect)).y + ((⟨48, 96, 516, 600⟩ : Rect)).height
          - PAD - FONT_BODY ∧
     flowBody (fun s => (s.length : ℚ) * 6)
        (fun _ => (⟨48, 96, 516, 600⟩ : Rect)) 1 "Hola mundo" ≠ [] ∧
     (∃ p, (flowBody (fun s => (s.length : ℚ) * 6)
        (fun _ => (⟨48, 96, 516, 600⟩ : Rect)) 1 "Hola mundo").head? = some p ∧
       p.idx = 0 ∧ p.rect = (⟨48, 96, 516, 600⟩ : Rect)) ∧
     ∀ p ∈ flowBody (fun s => (s.length : ℚ) * 6)
        (fun _ => (⟨48, 96, 516, 600⟩ : Rect)) 1 "Hola mundo",
       pageOk (fun _ => (⟨48, 96, 516, 600⟩ : Rect)) p) :=
  ⟨fun _ => by norm_num,
   c1_cursor_pagination (fun s => (s.length : ℚ) * 6)
     (fun _ => (⟨48, 96, 516, 600⟩ : Rect)) 1 "Hola mundo"
     (fun _ => by norm_num)⟩

/-! ### C2: the greedy word-wrap -/

/-- What the amended C2 asserts of an emitted line: it either fits the
usable width or is a single input word, and it is a space-join of input
words (so words are never split mid-word). -/
def wrapLineOk (w : String → ℚ) (mw : ℚ) (words : List String)
    (line : String) : Prop :=
  (w line ≤ mw ∨ line ∈ words) ∧
  ∃ ws, ws ≠ [] ∧ (∀ x ∈ ws, x ∈ words) ∧ line = joinSpace ws

theorem joinSpace_append_singleton :
    ∀ (ws : List String) (x : String), ws ≠ [] →
      joinSpace (ws ++ [x]) = joinSpace ws ++ " " ++ x := by
  intro ws
  induction ws with
  | nil => intro x h; exact absurd rfl h
  | cons a ws ih =>
      intro x _
      cases ws with
      | nil => simp [joinSpace]
      | cons b ws2 =>
          have h2 := ih x (by simp)
          calc joinSpace (a :: b :: ws2 ++ [x])
              = a ++ " " ++ joinSpace ((b :: ws2) ++ [x]) := by
                simp only [List.cons_append, joinSpace, List.append_eq]
            _ = a ++ " " ++ (joinSpace (b :: ws2) ++ " " ++ x) := by rw [h2]
            _ = joinSpace (a :: b :: ws2) ++ " " ++ x := by
                simp only [joinSpace, String.append_assoc]

theorem wrapWords_ok (w : String → ℚ) (mw : ℚ) (ml : ℕ)
    (words : List String) :
    ∀ ws lines cur,
      (∀ x ∈ ws, x ∈ words) →
      (∀ l ∈ lines, wrapLineOk w mw words l) →
      (cur = "" ∨ wrapLineOk w mw words cur) →
      (∀ l ∈ (wrapWords w mw ml ws lines cur).1, wrapLineOk w mw words l) ∧
      ((wrapWords w mw ml ws lines cur).2 = "" ∨
        wrapLineOk w mw words (wrapWords w mw ml ws lines cur).2) := by
  intro ws
  induction ws with
  | nil => intro lines cur _ hl hc; exact ⟨hl, hc⟩
  | cons word rest ih =>
      intro lines cur hws hl hc
      have hword : word ∈ words := hws word (by simp)
      have hrest : ∀ x ∈ rest, x ∈ words := fun x hx => hws x (by simp [hx])
      simp only [wrapWords]
      by_cases htest : w (if cur = "" then word else cur ++ " " ++ word) ≤ mw
      · rw [if_pos htest]
        refine ih _ _ hrest hl (Or.inr ?_)
        by_cases hcur : cur = ""
        · rw [if_pos hcur] at htest ⊢
          exact ⟨Or.inl htest, [word], by simp, by simp [hword], by simp [joinSpace]⟩
        · rw [if_neg hcur] at htest ⊢
          rcases hc with hc | hc
          · exact absurd hc hcur
          · obtain ⟨ws0, hws0, hmem0, hjoin0⟩ := hc.2
            refine ⟨Or.inl htest, ws0 ++ [word], by simp, ?_, ?_⟩
            · intro x hx
              rcases List.mem_append.1 hx with hx | hx
              · exact hmem0 x hx
              · rw [List.mem_singleton] at hx
                exact hx ▸ hword
            · rw [joinSpace_append_singleton ws0 word hws0, hjoin0]
      · rw [if_neg htest]
        have hwordok : wrapLineOk w mw words word :=
          ⟨Or.inr hword, [word], by simp, by simp [hword], by simp [joinSpace]⟩
        by_cases hcur : cur = ""
        · rw [if_pos hcur]
          have hl2 : ∀ l ∈ lines ++ [word], wrapLineOk w mw words l := by
            intro l hlm
            rcases List.mem_append.1 hlm with hlm | hlm
            · exact hl l hlm
            · rw [List.mem_singleton] at hlm
              exact hlm ▸ hwordok
          by_cases hbreak : (lines ++ [word]).length = ml
          · rw [if_pos hbreak]
            exact ⟨hl2, Or.inr hwordok⟩
          · rw [if_neg hbreak]
            exact ih _ _ hrest hl2 (Or.inr hwordok)
        · rw [if_neg hcur]
          have hcok : wrapLineOk w mw words cur := hc.resolve_left hcur
          have hl2 : ∀ l ∈ lines ++ [cur], wrapLineOk w mw words l := by
            intro l hlm
            rcases List.mem_append.1 hlm with hlm | hlm
            · exact hl l hlm
            · rw [List.mem_singleton] at hlm
              exact hlm ▸ hcok
          by_cases hbreak : (lines ++ [cur]).length = ml
          · rw [if_pos hbreak]
            exact ⟨hl2, Or.inr hwordok⟩
          · rw [if_neg hbreak]
            exact ih _ _ hrest hl2 (Or.inr hwordok)

/-- C2 (amended): every line emitted by `wrapAndConsume` either fits the
usable width or is a single input word (the unsplittable over-length
case), and every line is a space-join of input words — words are never
split mid-word.  The amendment relative to C2 as frozen: when the
current line is empty and the next word is over-long, the word is
flushed as a line *and* also starts the new line, so it can be emitted a
second time when that line is later flushed — "exactly once" fails (see
the counterexample). -/
theorem c2_wrap_amended (w : String → ℚ) (text : String) (mw : ℚ) (ml : ℕ) :
    ∀ line ∈ (wrapAndConsume w text mw ml).1,
      (w line ≤ mw ∨ line ∈ jsSplitWs text) ∧
      ∃ ws, ws ≠ [] ∧ (∀ x ∈ ws, x ∈ jsSplitWs text) ∧
        line = joinSpace ws := by
  intro line hline
  have h := wrapWords_ok w mw ml (jsSplitWs text) (jsSplitWs text) [] ""
    (fun x hx => hx) (by simp) (Or.inl rfl)
  simp only [wrapAndConsume] at hline
  split at hline
  · rcases List.mem_append.1 hline with hm | hm
    · exact h.1 line hm
    · rw [List.mem_singleton] at hm
      subst hm
      rcases h.2 with h2 | h2
      · next hcond =>
          exact absurd h2 hcond.2
      · exact h2
  · exact h.1 line hline

set_option maxRecDepth 4000 in
/-- Counterexample to C2 as frozen: with character width `10`, usable
width `5` and a three-line cap, the single over-long word `"ab"` is
emitted twice — once by the overflow flush and once more when the line it
started is flushed at the end — not "exactly once". -/
theorem c2_overlong_word_twice_cex :
    (wrapAndConsume (fun s => (s.length : ℚ) * 10) "ab" 5 3).1 = ["ab", "ab"] ∧
    ((wrapAndConsume (fun s => (s.length : ℚ) * 10) "ab" 5 3).1.count "ab" = 2) := by
  constructor
  · with_unfolding_all decide
  · with_unfolding_all decide

set_option maxRecDepth 4000 in
/-- Witness for `c2_wrap_amended`: the emitted line `"aa bb"` of a
concrete wrap fits the usable width and is a space-join of input
words. -/
theorem c2_wrap_amended_witness :
    ("aa bb" ∈ (wrapAndConsume (fun s => (s.length : ℚ) * 10) "aa bb cc" 50 9).1) ∧
    (((fun s => (s.length : ℚ) * 10) "aa bb" ≤ 50 ∨
        "aa bb" ∈ jsSplitWs "aa bb cc") ∧
     ∃ ws, ws ≠ [] ∧ (∀ x ∈ ws, x ∈ jsSplitWs "aa bb cc") ∧
       "aa bb" = joinSpace ws) :=
  ⟨by with_unfolding_all decide,
   c2_wrap_amended (fun s => (s.length : ℚ) * 10) "aa bb cc" 50 9 "aa bb"
     (by with_unfolding_all decide)⟩

/-! ### C6: the title line cap and title-only-on-page-0 -/

theorem wrapWords_length_le (w : String → ℚ) (mw : ℚ) (ml : ℕ) :
    ∀ ws lines cur, lines.length < ml →
      (wrapWords w mw ml ws lines cur).1.length ≤ ml := by
  intro ws
  induction ws with
  | nil => intro lines cur h; exact le_of_lt h
  | cons word rest ih =>
      intro lines cur h
      simp only [wrapWords]
      by_cases htest : w (if cur = "" then word else cur ++ " " ++ word) ≤ mw
      · rw [if_pos htest]
        exact ih _ _ h
      · rw [if_neg htest]
        by_cases hcur : cur = ""
        · rw [if_pos hcur]
          by_cases hbreak : (lines ++ [word]).length = ml
          · rw [if_pos hbreak]
            exact le_of_eq hbreak
          · rw [if_neg hbreak]
            refine ih _ _ ?_
            simp only [List.length_append, List.length_singleton] at hbreak ⊢
            omega
        · rw [if_neg hcur]
          by_cases hbreak : (lines ++ [cur]).length = ml
          · rw [if_pos hbreak]
            exact le_of_eq hbreak
          · rw [if_neg hbreak]
            refine ih _ _ ?_
            simp only [List.length_append, List.length_singleton] at hbreak ⊢
            omega

theorem wrapAndConsume_length_le (w : String → ℚ) (text : String) (mw : ℚ)
    (ml : ℕ) (hml : 1 ≤ ml) :
    (wrapAndConsume w text mw ml).1.length ≤ ml := by
  have hloop := wrapWords_length_le w mw ml (jsSplitWs text) [] ""
    (by simpa using hml)
  simp only [wrapAndConsume]
  split
  · next hcond =>
      simp only [List.length_append, List.length_singleton]
      omega
  · exact hloop

theorem one_le_titleMaxLines (h : ℚ) : 1 ≤ titleMaxLines h := by
  unfold titleMaxLines
  have : (1:ℤ) ≤ max 1 ⌊h / LINE_H_TITLE⌋ := le_max_left _ _
  omega

/-- The body flow places only body-font runs: every run it emits has
`bold = false` and font size `FONT_BODY`. -/
def bodyRunsOnly (st : FlowSt) : Prop :=
  (∀ r ∈ st.cur.runs, r.bold = false ∧ r.size = FONT_BODY) ∧
  (∀ p ∈ st.done, ∀ r ∈ p.runs, r.bold = false ∧ r.size = FONT_BODY)

theorem bodyRunsOnly_flow (meas : String → ℚ) (rectFor : ℕ → Rect)
    (tplPages : ℕ) (body : String) :
    ∀ p ∈ flowBody meas rectFor tplPages body,
      ∀ r ∈ p.runs, r.bold = false ∧ r.size = FONT_BODY := by
  have hB : ∀ st, bodyRunsOnly st → bodyRunsOnly (breakIfLow rectFor st) := by
    intro st ⟨h1, h2⟩
    unfold breakIfLow
    split
    · refine ⟨by simp [ensureNewPage], ?_⟩
      intro p hp
      simp only [ensureNewPage] at hp
      rcases List.mem_cons.1 hp with hp | hp
      · exact hp ▸ h1
      · exact h2 p hp
    · exact ⟨h1, h2⟩
  have hD : ∀ st, bodyRunsOnly st → bodyRunsOnly (decY st) := by
    intro st ⟨h1, h2⟩
    exact ⟨h1, h2⟩
  have hE : ∀ s st, bodyRunsOnly st →
      bodyRunsOnly (emit (sanitize s) (breakIfLow rectFor st)) := by
    intro s st h
    obtain ⟨h1, h2⟩ := hB st h
    refine ⟨?_, h2⟩
    intro r hr
    simp only [emit, List.mem_append, List.mem_singleton] at hr
    rcases hr with hr | hr
    · exact h1 r hr
    · subst hr
      exact ⟨rfl, rfl⟩
  have hfin := flowBlocks_inv meas rectFor hB hD hE
    (blocksOf (normalizeBody body)) (initSt rectFor tplPages)
    ⟨by simp [initSt], by simp [initSt]⟩
  obtain ⟨h1, h2⟩ := hfin
  intro p hp
  simp only [flowBody, List.mem_reverse] at hp
  rcases List.mem_cons.1 hp with hp | hp
  · exact hp ▸ h1
  · exact h2 p hp

/-- C6: the number of emitted title lines is capped at
`max(1, floor(titleRect.height / LINE_H_TITLE))` (text beyond the cap is
discarded — `wrapAndConsume`'s `break` stops the loop and its `rest` is
never used), and on every page other than page 0 the generation plan
contains only body-font (non-bold) runs: the title is rendered on page 0
only and never overflows to another page. -/
theorem c6_title_cap (wT wB : String → ℚ) (titleRect : Rect)
    (rectFor : ℕ → Rect) (tplPages : ℕ) (title body : String) :
    (titleLinesOf wT titleRect title).length ≤ titleMaxLines titleRect.height ∧
    ∀ p ∈ generatePlan wT wB titleRect rectFor tplPages title body,
      p.idx ≠ 0 → ∀ r ∈ p.runs, r.bold = false := by
  constructor
  · exact wrapAndConsume_length_le wT _ _ _ (one_le_titleMaxLines _)
  · intro p hp hidx r hr
    simp only [generatePlan, List.mem_map] at hp
    obtain ⟨q, hq, hfq⟩ := hp
    by_cases h0 : q.idx = 0
    · rw [if_pos h0] at hfq
      exact absurd (by rw [← hfq]; exact h0) hidx
    · rw [if_neg h0] at hfq
      subst hfq
      exact (bodyRunsOnly_flow wB rectFor tplPages body q hq r hr).1

set_option maxRecDepth 10000 in
/-- Witness for `c6_title_cap`: a concrete plan whose page of index 2
holds one body run; the cap and the non-bold property are obtained by
applying the theorem. -/
theorem c6_title_cap_witness :
    ((⟨2, ⟨48, 96, 516, 32⟩, [⟨"b", 53, 112, 11, false⟩]⟩ : FlowPage) ∈
      generatePlan (fun _ => (0:ℚ)) (fun _ => (0:ℚ)) ⟨0, 700, 500, 40⟩
        (fun _ => ⟨48, 96, 516, 32⟩) 1 "" "a\n\nb") ∧
    (titleLinesOf (fun _ => (0:ℚ)) ⟨0, 700, 500, 40⟩ "").length ≤
      titleMaxLines (⟨0, 700, 500, 40⟩ : Rect).height ∧
    ∀ r ∈ (⟨2, ⟨48, 96, 516, 32⟩, [⟨"b", 53, 112, 11, false⟩]⟩ : FlowPage).runs,
      r.bold = false :=
  ⟨by with_unfolding_all decide,
   (c6_title_cap (fun _ => (0:ℚ)) (fun _ => (0:ℚ)) ⟨0, 700, 500, 40⟩
      (fun _ => ⟨48, 96, 516, 32⟩) 1 "" "a\n\nb").1,
   (c6_title_cap (fun _ => (0:ℚ)) (fun _ => (0:ℚ)) ⟨0, 700, 500, 40⟩
      (fun _ => ⟨48, 96, 516, 32⟩) 1 "" "a\n\nb").2
     ⟨2, ⟨48, 96, 516, 32⟩, [⟨"b", 53, 112, 11, false⟩]⟩
     (by with_unfolding_all decide) (by norm_num)⟩

/-! ### C10: sanitized text runs -/

theorem sanitize_allowed (s : String) :
    (sanitize s).data.all allowedChar = true := by
  simp only [sanitize, List.all_eq_true]
  intro c hc
  rw [List.mem_map] at hc
  obtain ⟨c0, _, hc0⟩ := hc
  subst hc0
  by_cases h : allowedChar c0
  · rwa [if_pos h]
  · rw [if_neg h]
    decide

/-- A predicate true of every character of a string. -/
def charsOk (q : Char → Bool) (s : String) : Prop := ∀ c ∈ s.data, q c = true

theorem splitWsGo_chars :
    ∀ (l acc : List Char) (skipping : Bool) (piece : List Char),
      piece ∈ splitWsGo l acc skipping → ∀ c ∈ piece, c ∈ l ∨ c ∈ acc := by
  intro l
  induction l with
  | nil =>
      intro acc skipping piece hp c hc
      simp only [splitWsGo, List.mem_singleton] at hp
      subst hp
      exact Or.inr (List.mem_reverse.1 hc)
  | cons a rest ih =>
      intro acc skipping piece hp c hc
      simp only [splitWsGo] at hp
      by_cases hws : isJsWs a
      · rw [if_pos hws] at hp
        by_cases hsk : skipping
        · rw [if_pos hsk] at hp
          rcases ih [] true piece hp c hc with h | h
          · exact Or.inl (by simp [h])
          · simp at h
        · rw [if_neg hsk] at hp
          rcases List.mem_cons.1 hp with hp | hp
          · subst hp
            exact Or.inr (List.mem_reverse.1 hc)
          · rcases ih [] true piece hp c hc with h | h
            · exact Or.inl (by simp [h])
            · simp at h
      · rw [if_neg hws] at hp
        rcases ih (a :: acc) false piece hp c hc with h | h
        · exact Or.inl (by simp [h])
        · rcases List.mem_cons.1 h with h | h
          · exact Or.inl (by simp [h])
          · exact Or.inr h

theorem jsSplitWs_chars (q : Char → Bool) (s : String) (hs : charsOk q s) :
    ∀ word ∈ jsSplitWs s, charsOk q word := by
  intro word hw c hc
  simp only [jsSplitWs, List.mem_map] at hw
  obtain ⟨piece, hpiece, hpw⟩ := hw
  subst hpw
  rcases splitWsGo_chars s.data [] false piece hpiece c hc with h | h
  · exact hs c h
  · simp at h

theorem charsOk_append (q : Char → Bool) (a b : String)
    (ha : charsOk q a) (hb : charsOk q b) : charsOk q (a ++ b) := by
  intro c hc
  rw [String.data_append, List.mem_append] at hc
  rcases hc with hc | hc
  · exact ha c hc
  · exact hb c hc

theorem wrapWords_chars (q : Char → Bool) (hsp : q ' ' = true)
    (w : String → ℚ) (mw : ℚ) (ml : ℕ) :
    ∀ ws lines cur,
      (∀ x ∈ ws, charsOk q x) →
      (∀ l ∈ lines, charsOk q l) →
      charsOk q cur →
      (∀ l ∈ (wrapWords w mw ml ws lines cur).1, charsOk q l) ∧
      charsOk q (wrapWords w mw ml ws lines cur).2 := by
  intro ws
  induction ws with
  | nil => intro lines cur _ hl hc; exact ⟨hl, hc⟩
  | cons word rest ih =>
      intro lines cur hws hl hc
      have hword : charsOk q word := hws word (by simp)
      have hrest : ∀ x ∈ rest, charsOk q x := fun x hx => hws x (by simp [hx])
      have hsp2 : charsOk q " " := by
        intro c hc2
        have : c = ' ' := by simpa using hc2
        exact this ▸ hsp
      have htest : charsOk q (if cur = "" then word else cur ++ " " ++ word) := by
        by_cases hcur : cur = ""
        · rw [if_pos hcur]; exact hword
        · rw [if_neg hcur]
          exact charsOk_append q _ _ (charsOk_append q _ _ hc hsp2) hword
      simp only [wrapWords]
      by_cases hfits : w (if cur = "" then word else cur ++ " " ++ word) ≤ mw
      · rw [if_pos hfits]
        exact ih _ _ hrest hl htest
      · rw [if_neg hfits]
        have hl2 : ∀ l ∈ (if cur = "" then lines ++ [word] else lines ++ [cur]),
            charsOk q l := by
          intro l hlm
          by_cases hcur : cur = ""
          · rw [if_pos hcur] at hlm
            rcases List.mem_append.1 hlm with hlm | hlm
            · exact hl l hlm
            · rw [List.mem_singleton] at hlm
              exact hlm ▸ hword
          · rw [if_neg hcur] at hlm
            rcases List.mem_append.1 hlm with hlm | hlm
            · exact hl l hlm
            · rw [List.mem_singleton] at hlm
              exact hlm ▸ hc
        by_cases hcur : cur = ""
        · rw [if_pos hcur]
          by_cases hbreak : (lines ++ [word]).length = ml
          · rw [if_pos hbreak]
            exact ⟨by simpa [hcur] using hl2, hword⟩
          · rw [if_neg hbreak]
            exact ih _ _ hrest (by simpa [hcur] using hl2) hword
        · rw [if_neg hcur]
          by_cases hbreak : (lines ++ [cur]).length = ml
          · rw [if_pos hbreak]
            exact ⟨by simpa [hcur] using hl2, hword⟩
          · rw [if_neg hbreak]
            exact ih _ _ hrest (by simpa [hcur] using hl2) hword

theorem wrapAndConsume_chars (q : Char → Bool) (hsp : q ' ' = true)
    (w : String → ℚ) (text : String) (mw : ℚ) (ml : ℕ)
    (htext : charsOk q text) :
    ∀ line ∈ (wrapAndConsume w text mw ml).1, charsOk q line := by
  have h := wrapWords_chars q hsp w mw ml (jsSplitWs text) [] ""
    (jsSplitWs_chars q text htext) (by simp) (by intro c hc; simp at hc)
  intro line hline
  simp only [wrapAndConsume] at hline
  split at hline
  · rcases List.mem_append.1 hline with hm | hm
    · exact h.1 line hm
    · rw [List.mem_singleton] at hm
      exact hm ▸ h.2
  · exact h.1 line hline

theorem placeTitleLines_text :
    ∀ (x : ℚ) (ty : ℚ) (ls : List String) (r : Run),
      r ∈ placeTitleLines x ty ls → r.text ∈ ls := by
  intro x ty ls
  induction ls generalizing ty with
  | nil => intro r hr; simp [placeTitleLines] at hr
  | cons l ls ih =>
      intro r hr
      simp only [placeTitleLines] at hr
      rcases List.mem_cons.1 hr with hr | hr
      · subst hr; simp
      · exact List.mem_cons_of_mem _ (ih _ r hr)

/-- The body flow emits only sanitized text. -/
def runsAllowed (st : FlowSt) : Prop :=
  (∀ r ∈ st.cur.runs, r.text.data.all allowedChar = true) ∧
  (∀ p ∈ st.done, ∀ r ∈ p.runs, r.text.data.all allowedChar = true)

theorem runsAllowed_flow (meas : String → ℚ) (rectFor : ℕ → Rect)
    (tplPages : ℕ) (body : String) :
    ∀ p ∈ flowBody meas rectFor tplPages body,
      ∀ r ∈ p.runs, r.text.data.all allowedChar = true := by
  have hB : ∀ st, runsAllowed st → runsAllowed (breakIfLow rectFor st) := by
    intro st ⟨h1, h2⟩
    unfold breakIfLow
    split
    · refine ⟨by simp [ensureNewPage], ?_⟩
      intro p hp
      simp only [ensureNewPage] at hp
      rcases List.mem_cons.1 hp with hp | hp
      · exact hp ▸ h1
      · exact h2 p hp
    · exact ⟨h1, h2⟩
  have hD : ∀ st, runsAllowed st → runsAllowed (decY st) := by
    intro st ⟨h1, h2⟩
    exact ⟨h1, h2⟩
  have hE : ∀ s st, runsAllowed st →
      runsAllowed (emit (sanitize s) (breakIfLow rectFor st)) := by
    intro s st h
    obtain ⟨h1, h2⟩ := hB st h
    refine ⟨?_, h2⟩
    intro r hr
    simp only [emit, List.mem_append, List.mem_singleton] at hr
    rcases hr with hr | hr
    · exact h1 r hr
    · subst hr
      exact sanitize_allowed s
  have hfin := flowBlocks_inv meas rectFor hB hD hE
    (blocksOf (normalizeBody body)) (initSt rectFor tplPages)
    ⟨by simp [initSt], by simp [initSt]⟩
  obtain ⟨h1, h2⟩ := hfin
  intro p hp
  simp only [flowBody, List.mem_reverse] at hp
  rcases List.mem_cons.1 hp with hp | hp
  · exact hp ▸ h1
  · exact h2 p hp

/-- C10: every text run placed by the generation plan — the wrapped and
sanitized title lines on page 0 and the sanitized body lines on every
page — consists only of characters from the sanitizer's repertoire (tab,
LF, CR, printable ASCII, Latin-1 high range): body runs are drawn as
`sanitize(curLine)`, title runs are wrapped from `sanitize(title)` and
joined with plain spaces. -/
theorem c10_sanitized_runs (wT wB : String → ℚ) (titleRect : Rect)
    (rectFor : ℕ → Rect) (tplPages : ℕ) (title body : String) :
    ∀ p ∈ generatePlan wT wB titleRect rectFor tplPages title body,
      ∀ r ∈ p.runs, r.text.data.all allowedChar = true := by
  intro p hp r hr
  simp only [generatePlan, List.mem_map] at hp
  obtain ⟨q, hq, hfq⟩ := hp
  have hbody := runsAllowed_flow wB rectFor tplPages body q hq
  by_cases h0 : q.idx = 0
  · rw [if_pos h0] at hfq
    subst hfq
    simp only [List.mem_append] at hr
    rcases hr with hr | hr
    · have htext := placeTitleLines_text _ _ _ r hr
      have hsan : charsOk allowedChar
          (sanitize (if title = "" then "Sin título" else title)) := by
        intro c hc
        have := sanitize_allowed (if title = "" then "Sin título" else title)
        rw [List.all_eq_true] at this
        exact this c hc
      have hline := wrapAndConsume_chars allowedChar (by decide) wT
        (sanitize (if title = "" then "Sin título" else title))
        (titleRect.width - PAD * 2) (titleMaxLines titleRect.height) hsan
        r.text htext
      rw [List.all_eq_true]
      exact hline
    · exact hbody r hr
  · rw [if_neg h0] at hfq
    subst hfq
    exact hbody r hr

set_option maxRecDepth 10000 in
/-- Witness for `c10_sanitized_runs` at a concrete plan: the single title
run of an empty-input generation is fully inside the sanitizer's
character repertoire. -/
theorem c10_sanitized_runs_witness :
    ((⟨0, ⟨48, 96, 516, 600⟩, [⟨"Sin título", 5, 721, 14, true⟩]⟩ : FlowPage) ∈
      generatePlan (fun _ => (0:ℚ)) (fun _ => (0:ℚ)) ⟨0, 700, 500, 40⟩
        (fun _ => ⟨48, 96, 516, 600⟩) 1 "" "") ∧
    ((⟨"Sin título", 5, 721, 14, true⟩ : Run) ∈
      (⟨0, ⟨48, 96, 516, 600⟩, [⟨"Sin título", 5, 721, 14, true⟩]⟩ : FlowPage).runs) ∧
    ((⟨"Sin título", 5, 721, 14, true⟩ : Run)).text.data.all allowedChar = true :=
  ⟨by with_unfolding_all decide, by with_unfolding_all decide,
   c10_sanitized_runs (fun _ => (0:ℚ)) (fun _ => (0:ℚ)) ⟨0, 700, 500, 40⟩
     (fun _ => ⟨48, 96, 516, 600⟩) 1 "" ""
     ⟨0, ⟨48, 96, 516, 600⟩, [⟨"Sin título", 5, 721, 14, true⟩]⟩
     (by with_unfolding_all decide)
     ⟨"Sin título", 5, 721, 14, true⟩
     (by with_unfolding_all decide)⟩

/-! ### C4: the cross-page boilerplate filter -/

/-- C4: a lowercased (already trimmed) line that occurs on at least
`max(2, ceil(0.4 * pageCount))` distinct pages is absent from every page
of the filtered output. -/
theorem c4_boilerplate_filter (pls : List (List String)) (key : String)
    (hthr : boilerplateThreshold pls.length ≤ pageFreq pls key) :
    ∀ pg ∈ filterBoiler pls, ∀ ln ∈ pg, jsToLowerStr ln ≠ key := by
  intro pg hpg ln hln hkey
  simp only [filterBoiler, List.mem_map] at hpg
  obtain ⟨pg0, _, hpg0⟩ := hpg
  subst hpg0
  rw [List.mem_filter] at hln
  have := hln.2
  rw [decide_eq_true_eq] at this
  rw [hkey] at this
  omega

/-- Witness for `c4_boilerplate_filter`, realizing Scenario E: in a
six-page source where the line `"Foo"` occurs on five pages (threshold
`max(2, ceil(0.4 * 6)) = 3`), the line is absent from every page of the
filtered output. -/
theorem c4_boilerplate_filter_witness :
    (boilerplateThreshold
        ([["Foo", "x"], ["Foo"], ["foo"], ["Foo"], ["Foo"], ["y"]] :
          List (List String)).length ≤
      pageFreq [["Foo", "x"], ["Foo"], ["foo"], ["Foo"], ["Foo"], ["y"]] "foo") ∧
    ∀ pg ∈ filterBoiler [["Foo", "x"], ["Foo"], ["foo"], ["Foo"], ["Foo"], ["y"]],
      ∀ ln ∈ pg, jsToLowerStr ln ≠ "foo" :=
  ⟨by decide,
   c4_boilerplate_filter [["Foo", "x"], ["Foo"], ["foo"], ["Foo"], ["Foo"], ["y"]]
     "foo" (by decide)⟩

/-! ### C9: NoUsableTitle is recovered locally -/

theorem jsFindIndex_eq_none (p : α → Bool) :
    ∀ ls : List α, (∀ x ∈ ls, p x = false) → jsFindIndex p ls = none := by
  intro ls
  induction ls with
  | nil => intro _; rfl
  | cons x xs ih =>
      intro h
      simp only [jsFindIndex]
      rw [if_neg (by simp [h x (by simp)])]
      rw [ih (fun y hy => h y (by simp [hy]))]
      rfl

/-- C9: when every cleaned line is rejected by `badTitle` (no usable
title), ingestion recovers locally: it returns the literal default title
`"Sin título"` together with the entire cleaned text as body.  The
function returns normally — there is no fatal `NoUsableTitle`
propagation. -/
theorem c9_no_usable_title_recovery (raw : String)
    (h : ∀ l ∈ goodLinesOf raw, badTitle l = true) :
    extractTitleAndBody raw = ("Sin título", cleanedOf raw) := by
  have hnone : jsFindIndex (fun l => !badTitle l) (goodLinesOf raw) = none :=
    jsFindIndex_eq_none _ _ (fun l hl => by simp [h l hl])
  simp only [extractTitleAndBody, hnone]

/-- Witness for `c9_no_usable_title_recovery`: `"ab"` is too short to be
a title (length < 3), so ingestion falls back to the default title with
the cleaned text as body. -/
theorem c9_no_usable_title_recovery_witness :
    (∀ l ∈ goodLinesOf "ab", badTitle l = true) ∧
    extractTitleAndBody "ab" = ("Sin título", cleanedOf "ab") :=
  ⟨by decide, c9_no_usable_title_recovery "ab" (by decide)⟩

/-! ### C3: blank lines and the ingested body -/

/-- Two consecutive newlines occur somewhere in the list (a blank line
inside a string). -/
def hasNlNl : List Char → Bool
  | c1 :: c2 :: rest => (c1 == '\n' && c2 == '\n') || hasNlNl (c2 :: rest)
  | _ => false

/-- Three consecutive newlines occur somewhere in the list (at least two
consecutive blank lines). -/
def hasTripleNl : List Char → Bool
  | c1 :: c2 :: c3 :: rest =>
      (c1 == '\n' && c2 == '\n' && c3 == '\n') || hasTripleNl (c2 :: c3 :: rest)
  | _ => false

theorem hasTripleNl_cons_of_ne (c : Char) (t : List Char) (hc : c ≠ '\n') :
    hasTripleNl (c :: t) = hasTripleNl t := by
  match t with
  | [] => rfl
  | [c2] => rfl
  | c2 :: c3 :: r =>
      simp only [hasTripleNl]
      have : (c == '\n') = false := by simp [hc]
      simp [this]

theorem hasTripleNl_cons_mono (c : Char) (t : List Char)
    (h : hasTripleNl t = true) : hasTripleNl (c :: t) = true := by
  match t with
  | [] => simp [hasTripleNl] at h
  | [c2] => simp [hasTripleNl] at h
  | c2 :: c3 :: r =>
      simp only [hasTripleNl]
      simp [h]

theorem hasTripleNl_append_left (u t : List Char)
    (h : hasTripleNl t = true) : hasTripleNl (u ++ t) = true := by
  induction u with
  | nil => exact h
  | cons a u ih => exact hasTripleNl_cons_mono a _ ih

theorem hasTripleNl_append_right (t v : List Char)
    (h : hasTripleNl t = true) : hasTripleNl (t ++ v) = true := by
  induction t with
  | nil => simp [hasTripleNl] at h
  | cons c1 t1 ih =>
      match t1, h with
      | [], h => simp [hasTripleNl] at h
      | [c2], h => simp [hasTripleNl] at h
      | c2 :: c3 :: r, h =>
          simp only [hasTripleNl] at h
          rcases Bool.or_eq_true_iff.1 h with h | h
          · simp only [List.cons_append, hasTripleNl]
            simp [h]
          · have := ih h
            simp only [List.cons_append] at this ⊢
            exact hasTripleNl_cons_mono c1 _ this

theorem hasTripleNl_infix (u t v : List Char)
    (h : hasTripleNl (u ++ t ++ v) = false) : hasTripleNl t = false := by
  by_contra hne
  rw [Bool.not_eq_false] at hne
  have := hasTripleNl_append_left u _ (hasTripleNl_append_right t v hne)
  rw [← List.append_assoc] at this
  rw [this] at h
  exact absurd h (by simp)

theorem collapseNl_no_triple (l : List Char) :
    hasTripleNl (collapseNlList l) = false := by
  unfold collapseNlList
  induction l with
  | nil => rfl
  | cons c l ih =>
      simp only [List.foldr_cons]
      set r := l.foldr (fun c acc =>
        if c == '\n' && startsNlNl acc then acc else c :: acc) [] with hr
      by_cases hcond : (c == '\n' && startsNlNl r) = true
      · rw [if_pos hcond]
        exact ih
      · rw [if_neg hcond]
        by_cases hc : c = '\n'
        · subst hc
          match hrm : r, ih with
          | [], _ => rfl
          | [c2], _ => rfl
          | c2 :: c3 :: rr, ih2 =>
              have hstart : startsNlNl (c2 :: c3 :: rr) = false := by
                revert hcond
                simp
              simp only [hasTripleNl, beq_self_eq_true, Bool.true_and]
              rw [Bool.or_eq_false_iff]
              refine ⟨?_, ih2⟩
              by_contra hx
              rw [Bool.not_eq_false, Bool.and_eq_true, beq_iff_eq, beq_iff_eq] at hx
              obtain ⟨h2, h3⟩ := hx
              subst h2
              subst h3
              simp [startsNlNl] at hstart
        · rw [hasTripleNl_cons_of_ne c r hc]
          exact ih

theorem dropWhile_decomp (p : Char → Bool) (l : List Char) :
    ∃ u, l = u ++ l.dropWhile p :=
  ⟨l.takeWhile p, (List.takeWhile_append_dropWhile p l).symm⟩

theorem jsTrimRight_decomp (l : List Char) :
    ∃ v, l = jsTrimRightList l ++ v := by
  refine ⟨(l.reverse.takeWhile isJsWs).reverse, ?_⟩
  unfold jsTrimRightList
  conv_lhs => rw [← List.reverse_reverse l,
    ← List.takeWhile_append_dropWhile (p := isJsWs) (l := l.reverse)]
  rw [List.reverse_append]

theorem jsTrim_decomp (l : List Char) :
    ∃ u v, l = u ++ jsTrimList l ++ v := by
  obtain ⟨u, hu⟩ := dropWhile_decomp isJsWs l
  obtain ⟨v, hv⟩ := jsTrimRight_decomp (l.dropWhile isJsWs)
  refine ⟨u, v, ?_⟩
  rw [List.append_assoc]
  unfold jsTrimList jsTrimLeftList
  rw [← hv]
  exact hu

theorem cleanedOf_no_triple (raw : String) :
    hasTripleNl (cleanedOf raw).data = false := by
  simp only [cleanedOf]
  obtain ⟨u, v, huv⟩ := jsTrim_decomp
    (collapseNlList (stripWsNlList (raw.data.filter (· ≠ '\r'))))
  refine hasTripleNl_infix u _ v ?_
  rw [← huv]
  exact collapseNl_no_triple _

theorem hasNlNl_cons_of_ne (c : Char) (t : List Char) (hc : c ≠ '\n') :
    hasNlNl (c :: t) = hasNlNl t := by
  match t with
  | [] => rfl
  | c2 :: r =>
      simp only [hasNlNl]
      have : (c == '\n') = false := by simp [hc]
      simp [this]

theorem hasNlNl_cons_mono (c : Char) (t : List Char)
    (h : hasNlNl t = true) : hasNlNl (c :: t) = true := by
  match t with
  | [] => simp [hasNlNl] at h
  | c2 :: r =>
      simp only [hasNlNl]
      simp [h]

theorem hasNlNl_append_right (t v : List Char)
    (h : hasNlNl t = true) : hasNlNl (t ++ v) = true := by
  induction t with
  | nil => simp [hasNlNl] at h
  | cons c1 t1 ih =>
      match t1, h with
      | [], h => simp [hasNlNl] at h
      | c2 :: r, h =>
          simp only [hasNlNl] at h
          rcases Bool.or_eq_true_iff.1 h with h | h
          · simp only [List.cons_append, hasNlNl]
            simp [h]
          · have := ih h
            simp only [List.cons_append] at this ⊢
            exact hasNlNl_cons_mono c1 _ this

theorem hasNlNl_append_left (u t : List Char)
    (h : hasNlNl t = true) : hasNlNl (u ++ t) = true := by
  induction u with
  | nil => exact h
  | cons a u ih => exact hasNlNl_cons_mono a _ ih

theorem hasNlNl_infix (u t v : List Char)
    (h : hasNlNl (u ++ t ++ v) = false) : hasNlNl t = false := by
  by_contra hne
  rw [Bool.not_eq_false] at hne
  have := hasNlNl_append_left u _ (hasNlNl_append_right t v hne)
  rw [← List.append_assoc] at this
  rw [this] at h
  exact absurd h (by simp)

theorem hasNlNl_append_nlfree (a b : List Char) (ha : '\n' ∉ a) :
    hasNlNl (a ++ b) = hasNlNl b := by
  induction a with
  | nil => rfl
  | cons c a ih =>
      have hc : c ≠ '\n' := fun h => ha (by simp [h])
      have ha2 : '\n' ∉ a := fun h => ha (by simp [h])
      rw [List.cons_append, hasNlNl_cons_of_ne c _ hc, ih ha2]

theorem hasNlNl_of_nlfree (t : List Char) (h : '\n' ∉ t) :
    hasNlNl t = false := by
  have := hasNlNl_append_nlfree t [] h
  simpa using this

/-- Joining nonempty newline-free lines with single newlines yields a
text with no blank line. -/
theorem joinNl_no_blank :
    ∀ ls : List String, (∀ l ∈ ls, l ≠ "" ∧ '\n' ∉ l.data) →
      hasNlNl (joinNl ls).data = false ∧
      ∀ c, (joinNl ls).data.head? = some c → c ≠ '\n' := by
  intro ls
  induction ls with
  | nil => exact fun _ => ⟨rfl, by simp [joinNl]⟩
  | cons l ls ih =>
      intro h
      have hl := h l (by simp)
      have hls : ∀ x ∈ ls, x ≠ "" ∧ '\n' ∉ x.data :=
        fun x hx => h x (by simp [hx])
      cases ls with
      | nil =>
          refine ⟨hasNlNl_of_nlfree l.data hl.2, ?_⟩
          intro c hc
          simp only [joinNl] at hc
          have : c ∈ l.data := List.mem_of_mem_head? hc
          exact fun he => hl.2 (he ▸ this)
      | cons l2 ls2 =>
          obtain ⟨ihn, ihh⟩ := ih hls
          have hjoin : (joinNl (l :: l2 :: ls2)).data =
              l.data ++ '\n' :: (joinNl (l2 :: ls2)).data := by
            simp only [joinNl, String.data_append]
            simp
          have hw : (joinNl (l2 :: ls2)).data ≠ [] := by
            have hl2 := hls l2 (by simp)
            intro hempty
            cases ls2 with
            | nil =>
                simp only [joinNl] at hempty
                exact hl2.1 (by cases l2; simpa [String.ext_iff] using hempty)
            | cons l3 ls3 =>
                simp only [joinNl, String.data_append] at hempty
                simp at hempty
          constructor
          · rw [hjoin, hasNlNl_append_nlfree _ _ hl.2]
            cases hwc : (joinNl (l2 :: ls2)).data with
            | nil => exact absurd hwc hw
            | cons c2 r2 =>
                have hc2 : c2 ≠ '\n' := ihh c2 (by rw [hwc]; rfl)
                simp only [hasNlNl]
                rw [hwc] at ihn
                rw [Bool.or_eq_false_iff]
                refine ⟨by simp [hc2], ihn⟩
          · intro c hc
            rw [hjoin] at hc
            cases hld : l.data with
            | nil =>
                exact absurd (by cases l; simpa [String.ext_iff] using hld) hl.1
            | cons c1 r1 =>
                rw [hld] at hc
                simp only [List.cons_append, List.head?_cons,
                  Option.some_inj] at hc
                subst hc
                intro he
                exact hl.2 (by rw [hld, he]; simp)

theorem splitCharGo_no_sep (sep : Char) :
    ∀ (l acc piece : List Char), sep ∉ acc →
      piece ∈ splitCharGo sep l acc → sep ∉ piece := by
  intro l
  induction l with
  | nil =>
      intro acc piece hacc hp
      simp only [splitCharGo, List.mem_singleton] at hp
      subst hp
      simpa using hacc
  | cons c rest ih =>
      intro acc piece hacc hp
      simp only [splitCharGo] at hp
      by_cases hc : c = sep
      · rw [if_pos hc] at hp
        rcases List.mem_cons.1 hp with hp | hp
        · subst hp
          simpa using hacc
        · exact ih [] piece (by simp) hp
      · rw [if_neg hc] at hp
        refine ih (c :: acc) piece ?_ hp
        intro hmem
        rcases List.mem_cons.1 hmem with h | h
        · exact hc h.symm
        · exact hacc h

theorem jsTrimStr_mem (s : String) (c : Char) (hc : c ∈ (jsTrimStr s).data) :
    c ∈ s.data := by
  obtain ⟨u, v, huv⟩ := jsTrim_decomp s.data
  rw [huv]
  simp only [jsTrimStr] at hc
  simp [hc]

theorem goodLinesOf_props (raw : String) :
    ∀ l ∈ goodLinesOf raw, l ≠ "" ∧ '\n' ∉ l.data := by
  intro l hl
  simp only [goodLinesOf, List.mem_filter, List.mem_map] at hl
  obtain ⟨⟨piece, hpiece, hpl⟩, hne⟩ := hl
  refine ⟨by simpa using hne, ?_⟩
  subst hpl
  intro hmem
  have hc := jsTrimStr_mem piece '\n' hmem
  simp only [jsSplitChar, List.mem_map] at hpiece
  obtain ⟨pl, hpl2, hplp⟩ := hpiece
  have hns := splitCharGo_no_sep '\n' (cleanedOf raw).data [] pl (by simp) hpl2
  subst hplp
  exact hns hc

/-- C3 (amended): cleaning collapses every run of three or more newlines
— the cleaned text never contains three consecutive newlines, i.e. at
most one blank line survives at any spot — but the blank-line separators
do NOT survive into the ingested body: whenever a title line is found,
the remaining lines are trimmed, blank lines are dropped, and the rest
are joined by single newlines, so the ingested body contains no two
consecutive newlines at all (original order and single line breaks are
preserved, but a paragraph separator is not). -/
theorem c3_body_amended (raw : String) :
    hasTripleNl (cleanedOf raw).data = false ∧
    ((jsFindIndex (fun l => !badTitle l) (goodLinesOf raw)).isSome →
      hasNlNl (extractTitleAndBody raw).2.data = false) := by
  refine ⟨cleanedOf_no_triple raw, ?_⟩
  intro hsome
  obtain ⟨i, hi⟩ := Option.isSome_iff_exists.1 hsome
  simp only [extractTitleAndBody, hi]
  have hdrop : ∀ l ∈ (goodLinesOf raw).drop (i + 1), l ≠ "" ∧ '\n' ∉ l.data :=
    fun l hl => goodLinesOf_props raw l (List.mem_of_mem_drop hl)
  have hjoin := (joinNl_no_blank _ hdrop).1
  obtain ⟨u, v, huv⟩ := jsTrim_decomp (joinNl ((goodLinesOf raw).drop (i + 1))).data
  simp only [jsTrimStr]
  exact hasNlNl_infix u _ v (by rw [← huv]; exact hjoin)

set_option maxRecDepth 4000 in
/-- Counterexample to C3 as frozen: the claim says a single blank-line
separator between two paragraphs survives into the ingested body.  For
the raw source `"Titulo\nA\n\nB"` the title is `"Titulo"` and the body
comes out as `"A\nB"` — the blank line between `A` and `B` has been
dropped (the code filters out all blank lines before joining), not
preserved as `"A\n\nB"`. -/
theorem c3_blank_line_dropped_cex :
    extractTitleAndBody "Titulo\nA\n\nB" = ("Titulo", "A\nB") ∧
    (extractTitleAndBody "Titulo\nA\n\nB").2 ≠ "A\n\nB" := by
  constructor
  · decide
  · decide

set_option maxRecDepth 4000 in
/-- Witness for `c3_body_amended` at the counterexample's input. -/
theorem c3_body_amended_witness :
    ((jsFindIndex (fun l => !badTitle l)
        (goodLinesOf "Titulo\nA\n\nB")).isSome = true) ∧
    hasTripleNl (cleanedOf "Titulo\nA\n\nB").data = false ∧
    hasNlNl (extractTitleAndBody "Titulo\nA\n\nB").2.data = false :=
  ⟨by decide, (c3_body_amended "Titulo\nA\n\nB").1,
   (c3_body_amended "Titulo\nA\n\nB").2 (by decide)⟩

/-! ### C5: zone (form-field) resolution -/

theorem jsFindIndex_map (f : α → β) (p : β → Bool) :
    ∀ ls : List α, jsFindIndex p (ls.map f) = jsFindIndex (fun x => p (f x)) ls := by
  intro ls
  induction ls with
  | nil => rfl
  | cons x xs ih =>
      simp only [List.map_cons, jsFindIndex, ih]

theorem jsFindIndex_some_spec (p : α → Bool) (d : α) :
    ∀ (ls : List α) (i : ℕ), jsFindIndex p ls = some i →
      p (ls.getD i d) = true ∧ ls.getD i d ∈ ls := by
  intro ls
  induction ls with
  | nil => intro i h; simp [jsFindIndex] at h
  | cons x xs ih =>
      intro i h
      simp only [jsFindIndex] at h
      by_cases hx : p x
      · rw [if_pos hx] at h
        obtain rfl : (0:ℕ) = i := by simpa using h
        exact ⟨by simpa using hx, by simp⟩
      · rw [if_neg hx] at h
        rw [Option.map_eq_some'] at h
        obtain ⟨j, hj, rfl⟩ := h
        obtain ⟨hp, hmem⟩ := ih j hj
        exact ⟨by simpa using hp, by simpa using List.mem_cons_of_mem x hmem⟩

theorem jsFindIndex_isSome_of_any (p : α → Bool) :
    ∀ ls : List α, ls.any p = true → (jsFindIndex p ls).isSome = true := by
  intro ls
  induction ls with
  | nil => intro h; simp at h
  | cons x xs ih =>
      intro h
      simp only [jsFindIndex]
      by_cases hx : p x
      · rw [if_pos hx]; rfl
      · rw [if_neg hx]
        simp only [List.any_cons, hx, Bool.false_or] at h
        have := ih h
        cases hq : jsFindIndex p xs with
        | none => rw [hq] at this; simp at this
        | some j => rfl

theorem resolveFields_title_of_any (names : List String)
    (h : names.any hasTitleKw = true) :
    hasTitleKw (resolveFields names).1 = true ∧ (resolveFields names).1 ∈ names := by
  simp only [resolveFields, jsFindIndex_map]
  have hsome := jsFindIndex_isSome_of_any
    (fun n => containsSub "title" (jsToLowerStr n)) names (by simpa [hasTitleKw] using h)
  cases hq : jsFindIndex (fun n => containsSub "title" (jsToLowerStr n)) names with
  | none => rw [hq] at hsome; simp at hsome
  | some i =>
      obtain ⟨hp, hmem⟩ := jsFindIndex_some_spec _ "" names i hq
      exact ⟨by simpa [hasTitleKw] using hp, hmem⟩

theorem resolveFields_title_of_none (names : List String) (_hne : names ≠ [])
    (h : names.any hasTitleKw = false) :
    (resolveFields names).1 = names.headD "" := by
  simp only [resolveFields, jsFindIndex_map]
  have hnone : jsFindIndex (fun n => containsSub "title" (jsToLowerStr n)) names
      = none := by
    refine jsFindIndex_eq_none _ _ ?_
    intro x hx
    have := List.any_eq_false.1 h x hx
    simpa [hasTitleKw] using this
  rw [hnone]

/-- C5 (amended): zone names are matched case-insensitively by substring
against `"title"` and `"body"`: whenever some field name contains
`"title"`, the resolved title field is such a matching name from the
list, and with exactly the fields `"Text Title"` and `"Text Body"` those
two names are resolved and their rectangles become the page-0 title and
body rectangles.  However, non-matching zones are NOT always ignored:
when no name contains `"title"`, the first field is selected as the
title placement regardless of its name (see the counterexample). -/
theorem c5_zone_resolution_amended :
    (resolveFields ["Text Title", "Text Body"] = ("Text Title", "Text Body")) ∧
    (∀ W H : ℚ, ∀ rT rB : Rect,
      (computeLayout W H ["Text Title", "Text Body"]
        (fun n => if n = "Text Title" then some rT
          else if n = "Text Body" then some rB else none)
        (resolveFields ["Text Title", "Text Body"]).1
        (resolveFields ["Text Title", "Text Body"]).2 false).titleRect = rT ∧
      (computeLayout W H ["Text Title", "Text Body"]
        (fun n => if n = "Text Title" then some rT
          else if n = "Text Body" then some rB else none)
        (resolveFields ["Text Title", "Text Body"]).1
        (resolveFields ["Text Title", "Text Body"]).2 false).rectForPage 0 = rB) ∧
    (∀ names : List String, names.any hasTitleKw = true →
      hasTitleKw (resolveFields names).1 = true ∧ (resolveFields names).1 ∈ names) ∧
    (∀ names : List String, names ≠ [] → names.any hasTitleKw = false →
      (resolveFields names).1 = names.headD "") := by
  refine ⟨by decide, ?_, resolveFields_title_of_any, resolveFields_title_of_none⟩
  intro W H rT rB
  constructor
  · rfl
  · rfl

/-- Counterexample to C5 as frozen: the claim says a zone whose name
contains neither `"title"` nor `"body"` is never selected as the title or
body placement.  With fields named `"foo"` and `"bar"` (matching
neither keyword), resolution nevertheless selects `"foo"` as the title
field and `"bar"` as the body field. -/
theorem c5_nonmatching_selected_cex :
    resolveFields ["foo", "bar"] = ("foo", "bar") ∧
    hasTitleKw "foo" = false ∧ hasBodyKw "foo" = false ∧
    hasTitleKw "bar" = false ∧ hasBodyKw "bar" = false := by
  refine ⟨by decide, by decide, by decide, by decide, by decide⟩

/-- Witness for `c5_zone_resolution_amended`: its quantified conjuncts
applied at concrete field lists. -/
theorem c5_zone_resolution_amended_witness :
    ((["a Title", "z"] : List String).any hasTitleKw = true) ∧
    (hasTitleKw (resolveFields ["a Title", "z"]).1 = true ∧
      (resolveFields ["a Title", "z"]).1 ∈ ["a Title", "z"]) ∧
    ((["x", "z"] : List String) ≠ []) ∧
    ((["x", "z"] : List String).any hasTitleKw = false) ∧
    ((resolveFields ["x", "z"]).1 = (["x", "z"] : List String).headD "") :=
  ⟨by decide,
   (c5_zone_resolution_amended).2.2.1 ["a Title", "z"] (by decide),
   by decide, by decide,
   (c5_zone_resolution_amended).2.2.2 ["x", "z"] (by decide) (by decide)⟩

end Gen
